import Mathlib

/-!
Verification of the fast5-to-CRAM conversion utility (`ont2cram.py`).

The development shallowly embeds the program's pure core: the path
normalizer (`remove_read_number`), the type unifier (`types_equal` and the
discovery pass over files), the tag allocator (`Tag` / `int_to_tag`), the
consensus detector and header builder (the first loop of `write_cram`), and
the record emitter (the inner functions of `write_cram`).

Python strings are modelled as `List Char` (ASCII assumed, matching the
data the tool handles).  External capabilities (the HDF5 reader, numpy
dtype rendering, pysam record output) are modelled by the data they hand
to the embedded code: a visited node carries its name, its attribute list
and its already-extracted column data.
-/

/-- Strings of the embedded program; Python `str` over ASCII. -/
abbrev Str := List Char

/-- Boolean prefix test on `Str` (Python `startswith` with a string argument). -/
def strStarts (s pre : Str) : Bool :=
  match pre, s with
  | [], _ => true
  | _ :: _, [] => false
  | p :: ps, c :: cs => p = c && strStarts cs ps

/-- Boolean suffix test on `Str` (Python `endswith` with a string argument). -/
def strEnds (s suf : Str) : Bool :=
  strStarts s.reverse suf.reverse

/-- First position of `pat` inside a string, scanning from offset `i`
(Python `str.find`, returning `none` for `-1`). -/
def findSubFrom (pat : Str) : Str → Nat → Option Nat
  | [], i => if strStarts [] pat then some i else none
  | c :: t, i => if strStarts (c :: t) pat then some i else findSubFrom pat t (i + 1)

/-- First position of `pat` inside `s` (Python `str.find`). -/
def findSub (s pat : Str) : Option Nat :=
  findSubFrom pat s 0

/-- Substring containment (Python `in` on strings). -/
def containsSub (s pat : Str) : Bool :=
  (findSub s pat).isSome

/-- ASCII lowercasing of one character (Python `str.lower`, ASCII fragment). -/
def lowerChar (c : Char) : Char :=
  if 'A' ≤ c ∧ c ≤ 'Z' then Char.ofNat (c.toNat + 32) else c

/-- ASCII lowercasing of a string. -/
def lowerStr (s : Str) : Str :=
  s.map lowerChar

/-- Word characters of the regex class `\w` (ASCII fragment: letters,
digits and underscore). -/
def isWordChar (c : Char) : Bool :=
  c.isAlphanum || c = '_'

/-- Atoms of the identifier regex
`{?\w{8}-?\w{4}-?\w{4}-?\w{4}-?\w{12}}?`: an optional literal character
(`c?`) or a fixed-length run of word characters (`\w{n}`). -/
inductive RItem where
  | optChar (c : Char)
  | wordN (n : Nat)
deriving DecidableEq

/-- Backtracking matcher for a list of regex atoms, with a continuation
`k` applied to the rest of the input; an optional atom prefers consuming
its character (greedy `?`).  Returns the number of consumed characters of
the first successful alternative, in the same preference order as the
Python regex engine. -/
def matchAtoms (k : Str → Bool) : List RItem → Str → Option Nat
  | [], rest => if k rest then some 0 else none
  | RItem.optChar c :: ps, rest =>
    (match rest with
     | r :: rs => if r = c then (matchAtoms k ps rs).map (· + 1) else none
     | [] => none).orElse
    (fun _ => matchAtoms k ps rest)
  | RItem.wordN n :: ps, rest =>
    if (rest.take n).length = n ∧ (rest.take n).all isWordChar then
      (matchAtoms k ps (rest.drop n)).map (· + n)
    else none

/-- The UUID-shaped branch `{?\w{8}-?\w{4}-?\w{4}-?\w{4}-?\w{12}}?` of the
identifier alternation in `remove_read_number`. -/
def uuidPattern : List RItem :=
  [RItem.optChar '{', RItem.wordN 8, RItem.optChar '-', RItem.wordN 4,
   RItem.optChar '-', RItem.wordN 4, RItem.optChar '-', RItem.wordN 4,
   RItem.optChar '-', RItem.wordN 12, RItem.optChar '}']

/-- Acceptance of the trailing `(.*$)` group: `.` cannot cross a newline
and `$` matches at the end or just before one final newline. -/
def tailOk (rest : Str) : Bool :=
  rest.count '\n' = 0 || (rest.count '\n' = 1 && rest.getLast? = some '\n')

/-- The alternation `({?\w{8}-?...-?\w{12}}?|\d+)` applied at a fixed
position, followed by `(.*$)`: the UUID-shaped branch is preferred, then a
maximal digit run (`\d+` is greedy, and shortening it cannot make the tail
acceptable).  Returns the matched identifier group. -/
def altMatch (s : Str) : Option Str :=
  match matchAtoms tailOk uuidPattern s with
  | some n => some (s.take n)
  | none =>
    let d := s.takeWhile Char.isDigit
    if d ≠ [] ∧ tailOk (s.drop d.length) then some d else none

/-- Case-insensitive test that the marker token `/read_` occurs at
position `p` (the pattern `\/read_` under `re.I`). -/
def markerAt (s : Str) (p : Nat) : Bool :=
  lowerStr ((s.drop p).take 6) = "/read_".toList

/-- One attempt of the anchored search `^.*\/read_(...)(.*$)` at marker
position `p`: the leading `.*` cannot cross a newline, then the marker,
then the identifier alternation.  Returns the three regex groups. -/
def stepAt (s : Str) (p : Nat) : Option (Str × Str × Str) :=
  if markerAt s p ∧ (s.take p).count '\n' = 0 then
    match altMatch (s.drop (p + 6)) with
    | some g2 => some (s.take (p + 6), g2, s.drop (p + 6 + g2.length))
    | none => none
  else none

/-- Backtracking of the greedy leading `.*`: try marker positions from
`p` downwards and keep the rightmost one at which the whole pattern
matches. -/
def findFrom (s : Str) : Nat → Option (Str × Str × Str)
  | 0 => stepAt s 0
  | p + 1 => (stepAt s (p + 1)).orElse (fun _ => findFrom s p)

/-- Embedding of `remove_read_number`: returns the canonical path (the
per-read identifier replaced by `XXX`) and the extracted identifier, or
the path unchanged when the quick `"/read_" in path.lower()` test or the
regex fails. -/
def remove_read_number (attribute_path : Str) : Str × Option Str :=
  if containsSub (lowerStr attribute_path) ("/read_".toList) then
    match findFrom attribute_path attribute_path.length with
    | some (g1, g2, g3) => (g1 ++ "XXX".toList ++ g3, some g2)
    | none => (attribute_path, none)
  else (attribute_path, none)

example : remove_read_number "/a/read_5/x".toList =
    ("/a/read_XXX/x".toList, some "5".toList) := by decide

example : remove_read_number "/read_1/read_2".toList =
    ("/read_1/read_XXX".toList, some "2".toList) := by decide

example : remove_read_number "/foo".toList = ("/foo".toList, none) := by decide

example : remove_read_number "/read_abc".toList = ("/read_abc".toList, none) := by
  decide

example :
    remove_read_number ("/read_12345678-1234-1234-1234-123456789012/x".toList) =
    ("/read_XXX/x".toList, some "12345678-1234-1234-1234-123456789012".toList) := by
  decide

/-- Scalar attribute values handled by the tool: Python/numpy integers,
text strings (numpy `U` kinds) and byte strings (numpy `S` kinds).  This
is the value universe the converter's claims quantify over. -/
inductive PyObj where
  | pyInt (n : Int)
  | pyStr (s : Str)
  | pyBytes (s : Str)
deriving DecidableEq

/-- The numpy dtype protocol string of a value (`get_type(value).str`):
64-bit integers render as `<i8`, text as `<U{n}`, bytes as `|S{n}`. -/
def get_type_str : PyObj → Str
  | .pyInt _ => "<i8".toList
  | .pyStr s => "<U".toList ++ (toString s.length).toList
  | .pyBytes s => "|S".toList ++ (toString s.length).toList

/-- Embedding of `convert_t`: strip a leading byte-order/encoding prefix
character. -/
def convert_t (typ : Str) : Str :=
  match typ with
  | c :: rest => if c = '=' ∨ c = '>' ∨ c = '<' ∨ c = '|' then rest else c :: rest
  | [] => []

/-- Embedding of `convert_type`: bytes are ASCII-decoded to text, and
text-like type descriptors are collapsed to their one-letter category. -/
def convert_type (value : PyObj) : PyObj × Str :=
  let typ := convert_t (get_type_str value)
  let value' := match value with
    | .pyBytes s => if strStarts typ "S".toList then PyObj.pyStr s else value
    | _ => value
  (value', if strStarts typ "U".toList ∨ strStarts typ "S".toList then typ.take 1 else typ)

example : convert_type (.pyInt 42) = (.pyInt 42, "i8".toList) := by decide
example : convert_type (.pyStr "ab".toList) = (.pyStr "ab".toList, "U".toList) := by
  decide
example : convert_type (.pyBytes "ab".toList) = (.pyStr "ab".toList, "S".toList) := by
  decide

/-- Python `repr` of an integer: its decimal rendering. -/
def intRepr (n : Int) : Str :=
  (toString n).toList

/-- One escaped character of a Python string literal rendered with quote
character `q` (printable ASCII fragment). -/
def escChar (q c : Char) : Str :=
  if c = '\\' then ['\\', '\\'] else if c = q then ['\\', q] else [c]

/-- Python `repr` of a text string (printable ASCII fragment): single
quotes preferred, double quotes when the content holds a single quote but
no double quote. -/
def strRepr (s : Str) : Str :=
  if s.contains '\'' && !s.contains '"' then
    '"' :: (s.map (escChar '"')).flatten ++ ['"']
  else
    '\'' :: (s.map (escChar '\'')).flatten ++ ['\'']

/-- Python `repr` of a value in the modelled universe. -/
def pyRepr : PyObj → Str
  | .pyInt n => intRepr n
  | .pyStr s => strRepr s
  | .pyBytes s => 'b' :: strRepr s

example : pyRepr (.pyInt (-7)) = "-7".toList := by decide
example : pyRepr (.pyStr "42".toList) = [Char.ofNat 39, '4', '2', Char.ofNat 39] := by
  decide

/-- Embedding of `is_fastq_path`. -/
def is_fastq_path (hdf_path : Str) : Bool :=
  strEnds hdf_path "BaseCalled_template/Fastq".toList

/-- Embedding of `is_signal_path`. -/
def is_signal_path (hdf_path : Str) : Bool :=
  containsSub hdf_path "/Raw".toList && strEnds hdf_path "/Signal".toList

/-- Embedding of `is_events_path`. -/
def is_events_path (hdf_path : Str) : Bool :=
  strEnds hdf_path "/Events".toList

/-- Embedding of `types_equal`: any two `S`-prefixed descriptors are
equal, any two `U`-prefixed descriptors are equal, all others compare by
plain string equality. -/
def types_equal (t1 t2 : Str) : Bool :=
  if strStarts t1 "S".toList && strStarts t2 "S".toList then true
  else if strStarts t1 "U".toList && strStarts t2 "U".toList then true
  else t1 == t2

example : types_equal "S2".toList "S11".toList = true := by decide
example : types_equal "S2".toList "U2".toList = false := by decide

/-- Embedding of `is_shared_value`: a strict majority over the input
files (`value > total_fast5_files // 2`). -/
def is_shared_value (value total_fast5_files : Nat) : Bool :=
  total_fast5_files / 2 < value

/-- The first slot of a `global_dict_attributes` entry: a type descriptor
string for a structured-array column, or the first-seen value for a
scalar attribute. -/
inductive StoredVal where
  | sType (t : Str)
  | sVal (v : PyObj)
deriving DecidableEq

/-- The process-wide schema directory `global_dict_attributes` during
discovery: an insertion-ordered association list from canonical key to
`[value-or-type, occurrence-count]`. -/
abbrev SchemaDir := List (Str × StoredVal × Nat)

/-- First-match association lookup in the schema directory. -/
def lookupDir (d : SchemaDir) (k : Str) : Option (StoredVal × Nat) :=
  match d with
  | [] => none
  | (k', p) :: t => if k' = k then some p else lookupDir t k

/-- In-place update of the first entry holding key `k`, preserving the
insertion order (Python dict assignment on a present key). -/
def updateDir (d : SchemaDir) (k : Str) (p : StoredVal × Nat) : SchemaDir :=
  match d with
  | [] => []
  | (k', p') :: t => if k' = k then (k', p) :: t else (k', p') :: updateDir t k p

/-- Errors of the discovery pass. -/
inductive DiscErr where
  | conflict (msg : Str)
  | attrTypeError
deriving DecidableEq

/-- The `sys.exit` message of a column type conflict
(`"Column '{}' - different types in fast5 files: {} vs {}"`). -/
def conflictMsg (key t1 t2 : Str) : Str :=
  "Column '".toList ++ key ++ "' - different types in fast5 files: ".toList ++
    t1 ++ " vs ".toList ++ t2

/-- Python `startswith` dispatch on the stored first slot: a stored type
string (or a stored text attribute value) supports it, any other stored
value raises (`AttributeError` / `TypeError`). -/
def storedAsTypeStr : StoredVal → Except DiscErr Str
  | .sType t => .ok t
  | .sVal (.pyStr s) => .ok s
  | .sVal _ => .error .attrTypeError

/-- The column loop of the discovery-side `process_dataset`: checks every
column's converted type against the directory and exits on a mismatch,
otherwise registers unseen columns with the count sentinel `0`. -/
def process_columns (hdf_path : Str) : SchemaDir → List (Str × Str) →
    Except DiscErr SchemaDir
  | d, [] => .ok d
  | d, col :: rest =>
    let col_type := convert_t col.2
    let full_key := hdf_path ++ "/".toList ++ col.1
    match lookupDir d full_key with
    | some (sv, _) =>
      match storedAsTypeStr sv with
      | .error e => .error e
      | .ok t1 =>
        if types_equal t1 col_type then process_columns hdf_path d rest
        else .error (.conflict (conflictMsg full_key t1 col_type))
    | none => process_columns hdf_path (d ++ [(full_key, .sType col_type, 0)]) rest

/-- Discovery-side embedding of the module-level `process_dataset`: skips
fastq nodes, otherwise runs the column loop. -/
def process_dataset (d : SchemaDir) (hdf_path : Str) (columns : List (Str × Str)) :
    Except DiscErr SchemaDir :=
  if is_fastq_path hdf_path then .ok d
  else process_columns hdf_path d columns

/-- Python `==` between a stored slot and a newly observed attribute
value: structural equality inside the value universe, string equality
between a stored type string and a text value, `False` across kinds. -/
def pyEqStored : StoredVal → PyObj → Bool
  | .sVal v, w => v == w
  | .sType t, .pyStr s => t == s
  | .sType _, _ => false

/-- One observation step of the attribute loop of
`pre_process_group_attrs`: a first sighting stores `[val, 1]`, a later
sighting increments the count only when the value equals the stored
one. -/
def attrStep (d : SchemaDir) (full_key : Str) (v : PyObj) : SchemaDir :=
  match lookupDir d full_key with
  | some (sv, c) => if pyEqStored sv v then updateDir d full_key (sv, c + 1) else d
  | none => d ++ [(full_key, .sVal v, 1)]

/-- The attribute loop of `pre_process_group_attrs` over one node's
attribute list. -/
def process_group_attrs (node_path : Str) : SchemaDir → List (Str × PyObj) → SchemaDir
  | d, [] => d
  | d, a :: rest =>
    process_group_attrs node_path (attrStep d (node_path ++ "/".toList ++ a.1) a.2) rest

/-- One visited node of the discovery pass: its raw path, whether it is a
dataset, its column descriptors (name and the dtype string rendered by
line 83 of the source) and its attribute list. -/
structure DNode where
  path : Str
  isDS : Bool
  dtypeCols : List (Str × Str)
  attrs : List (Str × PyObj)
deriving DecidableEq

/-- Embedding of `pre_process_group_attrs` for one visited node: the path
is normalized, dataset columns are type-checked/registered, then the
attributes are counted. -/
def pre_process_node (d : SchemaDir) (n : DNode) : Except DiscErr SchemaDir := do
  let np := (remove_read_number n.path).1
  let d1 ← if n.isDS then process_dataset d np n.dtypeCols else pure d
  pure (process_group_attrs np d1 n.attrs)

/-- Discovery over the nodes of one file, in visitation order. -/
def discoverNodes : SchemaDir → List DNode → Except DiscErr SchemaDir
  | d, [] => .ok d
  | d, n :: rest =>
    match pre_process_node d n with
    | .error e => .error e
    | .ok d2 => discoverNodes d2 rest

/-- Discovery over a list of files, in input order. -/
def discoverFilesAux : SchemaDir → List (List DNode) → Except DiscErr SchemaDir
  | d, [] => .ok d
  | d, f :: rest =>
    match discoverNodes d f with
    | .error e => .error e
    | .ok d2 => discoverFilesAux d2 rest

/-- Embedding of the discovery phase (`walk_fast5` over every input file
with `pre_process_group_attrs`): each file is a list of visited nodes in
visitation order. -/
def discoverFiles (files : List (List DNode)) : Except DiscErr SchemaDir :=
  discoverFilesAux [] files

example :
    discoverFiles [[⟨"/g".toList, false, [], [("a".toList, .pyInt 42)]⟩],
      [⟨"/g".toList, false, [], [("a".toList, .pyStr "42".toList)]⟩]] =
    .ok [("/g/a".toList, .sVal (.pyInt 42), 1)] := by rfl

/-- The tag alphabet of the allocator (`Tag.DIGITS`). -/
def DIGITS : Str :=
  "0123456789abcdefghijklmnopqrstuvwxyzABCDEFGHIJKLMNOPQRSTUVWXYZ".toList

/-- Position of a character in a string (Python `str.index`; only applied
to characters that occur). -/
def idxIn : Str → Char → Nat
  | [], _ => 0
  | c :: t, x => if c = x then 0 else idxIn t x + 1

/-- Embedding of `Tag.tag_to_int`: base-62 value of a two-character
code. -/
def tag_to_int (tag_name : Str) : Nat :=
  idxIn DIGITS (tag_name.getD 0 '0') * 62 + idxIn DIGITS (tag_name.getD 1 '0')

/-- Base-62 digit extraction with explicit fuel (the quotient strictly
decreases, so any fuel bound of at least `num` yields the digits of `num`
in base 62, most significant first). -/
def tagDigitsAux : Nat → Nat → Str
  | _, 0 => []
  | 0, _ => []
  | fuel + 1, num + 1 =>
    tagDigitsAux fuel ((num + 1) / 62) ++ [DIGITS.getD ((num + 1) % 62) '0']

/-- Base-62 digits of a number, most significant first (the loop body of
`Tag.int_to_tag` after its first mandatory iteration). -/
def tagDigits (num : Nat) : Str :=
  tagDigitsAux num num

/-- Embedding of `Tag.int_to_tag`: the do-while loop emits at least one
digit, so `0` renders as `"0"` and any other number as its base-62
digits. -/
def int_to_tag (num : Nat) : Str :=
  if num = 0 then [DIGITS.getD 0 '0'] else tagDigits num

/-- Reserved first allocator code (`FIRST_TAG`). -/
def FIRST_TAG : Str := "a0".toList

/-- Reserved terminal allocator code (`LAST_TAG`). -/
def LAST_TAG : Str := "zZ".toList

/-- Fixed tag identifier of the per-read sequence number
(`READ_NUM_TAG`). -/
def READ_NUM_TAG : Str := "X0".toList

/-- Fixed tag identifier of the source file's base name
(`FILENAME_TAG`). -/
def FILENAME_TAG : Str := "X1".toList

example : tag_to_int FIRST_TAG = 620 := by decide
example : tag_to_int LAST_TAG = 2231 := by decide
example : int_to_tag 620 = FIRST_TAG := by decide
example : int_to_tag 2231 = LAST_TAG := by decide
example : tag_to_int READ_NUM_TAG = 3658 := by decide

/-- The stored first slot viewed as the Python object the header loop
passes to `convert_type` (a column's slot is a Python string). -/
def pyOfStored : StoredVal → PyObj
  | .sType t => .pyStr t
  | .sVal v => v

/-- Python `str` of a value in the modelled universe (`format` uses it
for the comment line). -/
def pyStrOf : PyObj → Str
  | .pyInt n => intRepr n
  | .pyStr s => s
  | .pyBytes s => 'b' :: strRepr s

/-- Python `repr` of an optional value (`None` for the column case). -/
def reprOpt : Option PyObj → Str
  | none => "None".toList
  | some v => pyRepr v

/-- The `tag_and_val` string the header loop stores back into the
directory for one entry allocated counter value `num`: the `TG:` part,
plus a ` CV:` default for a strict-majority attribute that is not a
read-number key. -/
def mkTav (total num : Nat) (key : Str) (sv : StoredVal) (cnt : Nat) : Str :=
  let value : Option PyObj :=
    if cnt = 0 then none else some (convert_type (pyOfStored sv)).1
  let base := "TG:".toList ++ int_to_tag num
  if is_shared_value cnt total && !containsSub key "read_number".toList then
    base ++ " CV:".toList ++ reprOpt value
  else base

/-- The header comment line of one entry
(`"{}:'{}':{} {}".format("COL"/"ATR", key, hdf_type, tag_and_val)`). -/
def mkComment (total num : Nat) (key : Str) (sv : StoredVal) (cnt : Nat) : Str :=
  let hdf_type :=
    if cnt = 0 then (match sv with | .sType t => t | .sVal v => pyStrOf v)
    else (convert_type (pyOfStored sv)).2
  (if cnt = 0 then "COL".toList else "ATR".toList) ++ ":'".toList ++ key ++
    "':".toList ++ hdf_type ++ " ".toList ++ mkTav total num key sv cnt

/-- The `sys.exit` message of tag-namespace exhaustion (typo preserved
from the source). -/
def exhaustedMsg : Str :=
  "Running out of Tag space : too many atributes in Fast5".toList

/-- The header loop of `write_cram` from allocator counter `num`: per
entry, allocate the current code, abort when the allocated code ends in
the terminal code, otherwise record the comment line and the updated
`tag_and_val` slot. -/
def buildHeaderAux (total : Nat) : Nat → List (Str × StoredVal × Nat) →
    Except Str (List Str × List (Str × Str))
  | _, [] => .ok ([], [])
  | num, (k, sv, cnt) :: rest =>
    if strEnds ("TG:".toList ++ int_to_tag num) LAST_TAG then .error exhaustedMsg
    else do
      let (cs, tbl) ← buildHeaderAux total (num + 1) rest
      pure (mkComment total num k sv cnt :: cs, (k, mkTav total num k sv cnt) :: tbl)

/-- The whole header loop: the allocator starts at `FIRST_TAG`, entries
come in the schema directory's insertion order. -/
def buildHeader (entries : List (Str × StoredVal × Nat)) (total : Nat) :
    Except Str (List Str × List (Str × Str)) :=
  buildHeaderAux total (tag_to_int FIRST_TAG) entries

example :
    buildHeader [("/g/a".toList, .sVal (.pyInt 42), 1)] 1 =
    .ok (["ATR:'/g/a':i8 TG:a0 CV:42".toList],
      [("/g/a".toList, "TG:a0 CV:42".toList)]) := by rfl

example :
    buildHeader [("/g/read_number".toList, .sVal (.pyInt 7), 9)] 10 =
    .ok (["ATR:'/g/read_number':i8 TG:a0".toList],
      [("/g/read_number".toList, "TG:a0".toList)]) := by rfl

example :
    buildHeader [("/d/c".toList, .sType "i4".toList, 0)] 1 =
    .ok (["COL:'/d/c':i4 TG:a0".toList],
      [("/d/c".toList, "TG:a0".toList)]) := by rfl

/-- One cell of an extracted column (`tolist()` output elements): a byte
string or an integer. -/
inductive Cell where
  | cBytes (s : Str)
  | cInt (n : Int)
deriving DecidableEq

/-- The data behind one column of a visited dataset, as handed over by
the HDF5 reader (`get_column` followed by the ndarray test): an array's
`tolist()`, or a scalar from `dset[()]`. -/
inductive ColData where
  | arr (cells : List Cell)
  | scalarBytes (s : Str)
  | scalarInt (n : Int)
deriving DecidableEq

/-- A tag value the emitter passes to `set_tag`. -/
inductive TagVal where
  | tvBytes (s : Str)
  | tvCells (cells : List Cell)
  | tvStr (s : Str)
  | tvInt (n : Int)
deriving DecidableEq

/-- Runtime failures of the encoding pass (uncaught Python exceptions and
`sys.exit` calls). -/
inductive EmitErr where
  | keyError (k : Str)
  | assertTG (k : Str)
  | indexError
  | joinTypeError
  | scalarSubscript
  | unknownType (t : Str)
  | invalidFastq
  | indexFastq
deriving DecidableEq

/-- The frozen directory consulted during encoding: canonical key to its
`tag_and_val` string (the second slot after the header loop rewrote
it). -/
abbrev TagTable := List (Str × Str)

/-- Table lookup (Python dict indexing; a missing key raises
`KeyError`). -/
def lookupTab (t : TagTable) (k : Str) : Option Str :=
  match t with
  | [] => none
  | (k', v) :: rest => if k' = k then some v else lookupTab rest k

/-- Embedding of `get_tag_name_cv`: asserts the `TG:` prefix, takes the
two tag characters, and splits off an optional default after the first
`CV:` occurrence. -/
def get_tag_name_cv (table : TagTable) (hdf_full_path : Str) :
    Except EmitErr (Str × Option Str) :=
  match lookupTab table hdf_full_path with
  | none => .error (.keyError hdf_full_path)
  | some tav =>
    if strStarts tav "TG:".toList then
      let tag_name := (tav.drop 3).take 2
      let val_CV := (findSub tav "CV:".toList).map (fun p => tav.drop (p + 3))
      .ok (tag_name, val_CV)
    else .error (.assertTG hdf_full_path)

example : get_tag_name_cv [("k".toList, "TG:a0 CV:42".toList)] "k".toList =
    .ok ("a0".toList, some "42".toList) := by rfl
example : get_tag_name_cv [("k".toList, "TG:a0".toList)] "k".toList =
    .ok ("a0".toList, none) := by rfl

/-- Python `b''.join` over extracted cells: concatenates byte cells and
raises `TypeError` on anything else. -/
def joinBytes : List Cell → Except EmitErr Str
  | [] => .ok []
  | .cBytes s :: t => (joinBytes t).map (s ++ ·)
  | .cInt _ :: _ => .error .joinTypeError

/-- The per-column value construction of the inner `process_dataset`
(lines 190-205): the first element's runtime type selects byte
concatenation; an empty array raises `IndexError`, a scalar byte string
passes through (its `[0]` is an `int`), a scalar integer is not
subscriptable. -/
def colTagVal : ColData → Except EmitErr TagVal
  | .arr [] => .error .indexError
  | .arr (.cBytes b :: t) => (joinBytes (.cBytes b :: t)).map .tvBytes
  | .arr (.cInt n :: t) => .ok (.tvCells (.cInt n :: t))
  | .scalarBytes [] => .error .indexError
  | .scalarBytes (c :: s) => .ok (.tvBytes (c :: s))
  | .scalarInt _ => .error .scalarSubscript

/-- The column loop of the inner `process_dataset` of `write_cram`: per
column, in order, resolve the tag and emit the value; the first failure
aborts. -/
def emitCols (table : TagTable) (hdf_path : Str) :
    List (Str × ColData) → Except EmitErr (List (Str × TagVal))
  | [] => .ok []
  | col :: rest => do
    let (tag_name, _) ← get_tag_name_cv table (hdf_path ++ "/".toList ++ col.1)
    let tv ← colTagVal col.2
    let others ← emitCols table hdf_path rest
    pure ((tag_name, tv) :: others)

/-- Embedding of the inner `process_dataset` of `write_cram`: signal and
events nodes are skipped under the suppression flag, fastq nodes always;
otherwise every column's tag is resolved and its value emitted. -/
def process_dataset_emit (table : TagTable) (skipsignal : Bool) (hdf_path : Str)
    (columns : List (Str × ColData)) : Except EmitErr (List (Str × TagVal)) :=
  if is_signal_path hdf_path && skipsignal then .ok []
  else if is_events_path hdf_path && skipsignal then .ok []
  else if is_fastq_path hdf_path then .ok []
  else emitCols table hdf_path columns

/-- Embedding of `get_tag_type`: integer kinds map to `i`, float kinds to
`f`, text kinds carry no marker, anything else exits. -/
def get_tag_type (np_typecode : Str) : Except EmitErr (Option Char) :=
  if strStarts np_typecode "u".toList || strStarts np_typecode "i".toList then
    .ok (some 'i')
  else if strStarts np_typecode "f".toList then .ok (some 'f')
  else if strStarts np_typecode "S".toList || strStarts np_typecode "U".toList then
    .ok none
  else .error (.unknownType np_typecode)

/-- The attribute loop of the inner `process_attrs` (lines 220-227): per
attribute, convert the value, resolve tag and default, and emit the typed
tag only when the value's `repr` differs from the default. -/
def processAttrList (table : TagTable) (node_path : Str) :
    List (Str × PyObj) → Except EmitErr (List (Str × TagVal))
  | [] => .ok []
  | a :: rest => do
    let (value, hdf_type) := convert_type a.2
    let (tag_name, val_CV) ← get_tag_name_cv table (node_path ++ "/".toList ++ a.1)
    let here ←
      if val_CV ≠ some (pyRepr value) then do
        let _ ← get_tag_type hdf_type
        pure [(tag_name, match value with
          | .pyInt n => TagVal.tvInt n
          | .pyStr s => TagVal.tvStr s
          | .pyBytes s => TagVal.tvBytes s)]
      else pure []
    let others ← processAttrList table node_path rest
    pure (here ++ others)

/-- One visited node of the encoding pass: its raw absolute name, whether
it is a dataset, its columns with their extracted data, and its
attributes. -/
structure NodeV where
  name : Str
  isDS : Bool
  cols : List (Str × ColData)
  attrs : List (Str × PyObj)
deriving DecidableEq

/-- What one visited node contributes to the record being built. -/
structure NodeOut where
  tags : List (Str × TagVal)
  fastqSet : Option Str
  readNum : Option Str
deriving DecidableEq

/-- Embedding of the inner `process_attrs` for one visited node: remember
a fastq node's raw name, normalize the path, attach the extracted
identifier under the reserved read-number tag, then datasets' columns,
then the node's attributes. -/
def processNode (table : TagTable) (skipsignal : Bool) (node : NodeV) :
    Except EmitErr NodeOut := do
  let fq := if is_fastq_path node.name then some node.name else none
  let (nname, read_num) := remove_read_number node.name
  let readTags : List (Str × TagVal) :=
    match read_num with
    | some rn => [(READ_NUM_TAG, .tvStr rn)]
    | none => []
  let colTags ←
    if node.isDS then process_dataset_emit table skipsignal nname node.cols
    else pure []
  let attrTags ← processAttrList table nname node.attrs
  pure ⟨readTags ++ colTags ++ attrTags, fq, read_num⟩

/-- The `visititems` walk of one read group: nodes in visitation order,
accumulating emitted tags and the last-seen fastq node name. -/
def processRead (table : TagTable) (skipsignal : Bool) :
    List NodeV → List (Str × TagVal) × Option Str →
    Except EmitErr (List (Str × TagVal) × Option Str)
  | [], st => .ok st
  | n :: rest, (tags, fq) => do
    let out ← processNode table skipsignal n
    processRead table skipsignal rest
      (tags ++ out.tags, (out.fastqSet).orElse (fun _ => fq))

/-- Embedding of `read_fastq_from_file` on the companion file's split
lines: exits unless the file holds exactly four lines. -/
def read_fastq_from_file (lines : List Str) : Except EmitErr (List (Option Str)) :=
  if lines.length ≠ 4 then .error .invalidFastq else .ok (lines.map some)

/-- Python `str.splitlines` restricted to `\n` separators: no trailing
empty component, and the empty string yields no lines. -/
def splitOnNl : Str → List Str
  | [] => [[]]
  | c :: t =>
    if c = '\n' then [] :: splitOnNl t
    else match splitOnNl t with
      | [] => [[c]]
      | l :: ls => (c :: l) :: ls

/-- Python `str.splitlines` (LF fragment). -/
def splitlines (s : Str) : List Str :=
  if s = [] then []
  else if s.getLast? = some '\n' then (splitOnNl s).dropLast else splitOnNl s

example : splitlines "a\nb\n".toList = ["a".toList, "b".toList] := by decide
example : splitlines "".toList = [] := by decide
example : splitlines "\n".toList = [[]] := by decide
example : splitlines "a\n\nb".toList = ["a".toList, [], "b".toList] := by decide

/-- List indexing as the Python subscript: out of range raises. -/
def pyIndex (l : List (Option Str)) (i : Nat) : Except EmitErr (Option Str) :=
  match l.get? i with
  | some v => .ok v
  | none => .error .indexFastq

/-- One output record: its tag list in emission order and the three
sequence-payload fields taken from lines 0, 1 and 3. -/
structure OutRecord where
  tags : List (Str × TagVal)
  qname : Option Str
  qseq : Option Str
  qqual : Option Str
deriving DecidableEq

/-- The line list available after the walk: the embedded fastq node's
split content when one was seen, else the `"nofastq"` placeholder list
(`["nofastq", None, None, None]`). -/
def embeddedLines (contentOf : Str → Str) : Option Str → List (Option Str)
  | some p => (splitlines (contentOf p)).map some
  | none => [some "nofastq".toList, none, none, none]

/-- Embedding of the per-read body of `write_cram` (lines 233-254): the
file-name tag is set first, the subtree is walked, then the sequence
payload is resolved — the default placeholder, overridden by the embedded
fastq node's split content, overridden by the companion file when a
companion directory is configured — and the record fields are filled from
lines 0, 1 and 3. -/
def emitRecord (table : TagTable) (skipsignal : Bool) (basename : Str)
    (nodes : List NodeV) (contentOf : Str → Str) (companion : Option (List Str)) :
    Except EmitErr OutRecord := do
  let initTags : List (Str × TagVal) := [(FILENAME_TAG, .tvStr basename)]
  let (tags, fq) ← processRead table skipsignal nodes ([], none)
  let lines2 ← match companion with
    | some ls => read_fastq_from_file ls
    | none => pure (embeddedLines contentOf fq)
  let qname ← pyIndex lines2 0
  let qseq ← pyIndex lines2 1
  let qqual ← pyIndex lines2 3
  pure ⟨initTags ++ tags, qname, qseq, qqual⟩

/-! ### Generic lemmas -/

theorem strStarts_nil_pre (s : Str) : strStarts s [] = true := by
  cases s <;> rfl

theorem strStarts_cons (c d : Char) (s pre : Str) :
    strStarts (c :: s) (d :: pre) = (decide (d = c) && strStarts s pre) := rfl

theorem beq_str_iff (s t : Str) : (s == t) = true ↔ s = t := beq_iff_eq

/-! ### Claim C6: the type unifier's equality -/

/-- Text-likeness of a type descriptor as the claim uses the phrase: a
byte-text (`S`) or unicode-text (`U`) kind of any width. -/
def textLike (t : Str) : Bool :=
  strStarts t "S".toList || strStarts t "U".toList

/-- Claim C6 is false as stated: the two text-like descriptors `S2` and
`U2` (a 2-byte byte-string against a 2-character unicode string) are not
equal under `types_equal`, and two dataset-column observations of one key
with these types do abort discovery with a schema conflict. -/
theorem claim_C6_counterexample :
    textLike "S2".toList = true ∧ textLike "U2".toList = true ∧
    types_equal "S2".toList "U2".toList = false ∧
    discoverFiles
      [[⟨"/d".toList, true, [("c".toList, "|S2".toList)], []⟩],
       [⟨"/d".toList, true, [("c".toList, "<U2".toList)], []⟩]] =
    .error (.conflict (conflictMsg "/d/c".toList "S2".toList "U2".toList)) := by
  refine ⟨by decide, by decide, by decide, by rfl⟩

/-- Claim C6 amended: two `S`-kind descriptors of any width are equal and
so are two `U`-kind descriptors, but an `S` kind is never equal to a `U`
kind (the two text encodings conflict); descriptors outside the two text
categories are equal exactly when they are identical strings. -/
theorem claim_C6_thm (a b : Str) :
    types_equal ('S' :: a) ('S' :: b) = true ∧
    types_equal ('U' :: a) ('U' :: b) = true ∧
    types_equal ('S' :: a) ('U' :: b) = false ∧
    types_equal ('U' :: a) ('S' :: b) = false ∧
    (∀ t1 t2 : Str, strStarts t1 "S".toList = false →
      strStarts t1 "U".toList = false → (types_equal t1 t2 = true ↔ t1 = t2)) := by
  refine ⟨?_, ?_, ?_, ?_, ?_⟩
  · simp [types_equal, strStarts_cons, strStarts_nil_pre]
  · simp [types_equal, strStarts_cons, strStarts_nil_pre]
  · simp [types_equal, strStarts_cons, strStarts_nil_pre]
  · simp [types_equal, strStarts_cons, strStarts_nil_pre]
  · intro t1 t2 hS hU
    have hS' : strStarts t1 ['S'] = false := hS
    have hU' : strStarts t1 ['U'] = false := hU
    simp [types_equal, hS', hU']

/-- Witness: the amended C6 theorem applied at concrete descriptors. -/
theorem claim_C6_witness :
    types_equal "S2".toList "S11".toList = true ∧
    (types_equal "i4".toList "i4".toList = true ↔ "i4".toList = "i4".toList) := by
  constructor
  · exact (claim_C6_thm "2".toList "11".toList).1
  · exact (claim_C6_thm [] []).2.2.2.2 "i4".toList "i4".toList (by decide) (by decide)

/-! ### Claim C10: column emission is partial on empty columns -/

/-- Claim C10: building a column's tag value inspects the first element,
so it is defined only for non-empty column data — an empty extracted
array raises the index error — and a dataset column whose value list is
empty makes the whole (non-skipped) dataset emission fail with that
error. -/
theorem claim_C10_thm :
    colTagVal (.arr []) = .error .indexError ∧
    (∀ (cells : List Cell) (tv : TagVal),
      colTagVal (.arr cells) = .ok tv → cells ≠ []) ∧
    (∀ (table : TagTable) (skip : Bool) (path cname tav : Str),
      (is_signal_path path && skip) = false →
      (is_events_path path && skip) = false →
      is_fastq_path path = false →
      lookupTab table (path ++ "/".toList ++ cname) = some tav →
      strStarts tav "TG:".toList = true →
      process_dataset_emit table skip path [(cname, .arr [])] =
        .error .indexError) := by
  refine ⟨rfl, ?_, ?_⟩
  · intro cells tv h hnil
    subst hnil
    simp [colTagVal] at h
  · intro table skip path cname tav h1 h2 h3 h4 h5
    simp only [process_dataset_emit, h1, h2, h3, if_false, Bool.false_eq_true,
      emitCols, get_tag_name_cv, h4, h5, if_true, colTagVal]
    rfl

/-- Witness: the C10 theorem at a concrete table, path and column. -/
theorem claim_C10_witness :
    process_dataset_emit [("/d/c".toList, "TG:a0".toList)] false "/d".toList
      [("c".toList, .arr [])] = .error .indexError := by
  exact claim_C10_thm.2.2 [("/d/c".toList, "TG:a0".toList)] false "/d".toList
    "c".toList "TG:a0".toList (by decide) (by decide) (by decide) (by rfl)
    (by decide)

/-! ### Tag allocator lemmas -/

theorem toList_TG : "TG:".toList = ['T', 'G', ':'] := rfl

theorem toList_CVc : "CV:".toList = ['C', 'V', ':'] := rfl

theorem toList_sCV : " CV:".toList = [' ', 'C', 'V', ':'] := rfl

theorem tagDigitsAux_zero (fuel : Nat) : tagDigitsAux fuel 0 = [] := by
  cases fuel <;> rfl

theorem tagDigitsAux_small (fuel num : Nat) (h0 : 0 < num) (h62 : num < 62)
    (hf : num ≤ fuel) : tagDigitsAux fuel num = [DIGITS.getD num '0'] := by
  cases num with
  | zero => omega
  | succ n =>
    cases fuel with
    | zero => omega
    | succ f =>
      show tagDigitsAux f ((n + 1) / 62) ++ [DIGITS.getD ((n + 1) % 62) '0'] = _
      rw [Nat.div_eq_of_lt h62, Nat.mod_eq_of_lt h62, tagDigitsAux_zero]
      rfl

theorem tagDigitsAux_two (fuel m : Nat) (h : 62 ≤ m) (h2 : m < 3844)
    (hf : m ≤ fuel) :
    tagDigitsAux fuel m = [DIGITS.getD (m / 62) '0', DIGITS.getD (m % 62) '0'] := by
  cases m with
  | zero => omega
  | succ n =>
    cases fuel with
    | zero => omega
    | succ f =>
      show tagDigitsAux f ((n + 1) / 62) ++ [DIGITS.getD ((n + 1) % 62) '0'] = _
      have hdivlt : (n + 1) / 62 < n + 1 := Nat.div_lt_self (by omega) (by norm_num)
      rw [tagDigitsAux_small f ((n + 1) / 62) (Nat.div_pos h (by norm_num))
        (by omega) (by omega)]
      rfl

theorem int_to_tag_two (m : Nat) (h : 62 ≤ m) (h2 : m < 3844) :
    int_to_tag m = [DIGITS.getD (m / 62) '0', DIGITS.getD (m % 62) '0'] := by
  unfold int_to_tag tagDigits
  rw [if_neg (by omega)]
  exact tagDigitsAux_two m m h h2 le_rfl

theorem digit_eq_z : ∀ i, i < 62 → (DIGITS.getD i '0' = 'z' ↔ i = 35) := by decide

theorem digit_eq_Zc : ∀ i, i < 62 → (DIGITS.getD i '0' = 'Z' ↔ i = 61) := by decide

theorem digit_eq_Xc : ∀ i, i < 62 → (DIGITS.getD i '0' = 'X' ↔ i = 59) := by decide

theorem digit_inj : ∀ i, i < 62 → ∀ j, j < 62 →
    DIGITS.getD i '0' = DIGITS.getD j '0' → i = j := by decide

theorem strEnds_pair (xs : Str) (a b c d : Char) :
    strEnds (xs ++ [a, b]) [c, d] = (decide (d = b) && decide (c = a)) := by
  simp only [strEnds, List.reverse_append, List.reverse_cons, List.reverse_nil,
    List.nil_append, List.cons_append, strStarts, strStarts_nil_pre,
    Bool.and_true]

theorem int_to_tag_inj (m1 m2 : Nat) (h1a : 62 ≤ m1) (h1b : m1 < 3844)
    (h2a : 62 ≤ m2) (h2b : m2 < 3844) (h : int_to_tag m1 = int_to_tag m2) :
    m1 = m2 := by
  rw [int_to_tag_two m1 h1a h1b, int_to_tag_two m2 h2a h2b] at h
  injection h with ha htl
  injection htl with hb hnil
  have e1 := digit_inj (m1 / 62) (by omega) (m2 / 62) (by omega) ha
  have e2 := digit_inj (m1 % 62) (by omega) (m2 % 62) (by omega) hb
  omega

theorem header_abort_iff (m : Nat) (h1 : 620 ≤ m) (h2 : m ≤ 2231) :
    (strEnds ("TG:".toList ++ int_to_tag m) LAST_TAG = true) ↔ m = 2231 := by
  rw [int_to_tag_two m (by omega) (by omega)]
  show strEnds (['T', 'G', ':'] ++ [_, _]) ['z', 'Z'] = true ↔ _
  rw [strEnds_pair]
  constructor
  · intro hb
    simp only [Bool.and_eq_true, decide_eq_true_eq] at hb
    have hz := (digit_eq_z (m / 62) (by omega)).1 hb.2.symm
    have hZ := (digit_eq_Zc (m % 62) (by omega)).1 hb.1.symm
    omega
  · intro hm
    subst hm
    decide

/-! ### Header loop characterization -/

/-- The table the header loop writes back (`pair[1] = tag_and_val`), as a
pure function of the starting counter. -/
def mkTable (total : Nat) : Nat → List (Str × StoredVal × Nat) → TagTable
  | _, [] => []
  | num, e :: rest => (e.1, mkTav total num e.1 e.2.1 e.2.2) :: mkTable total (num + 1) rest

/-- The comment lines the header loop accumulates. -/
def mkComments (total : Nat) : Nat → List (Str × StoredVal × Nat) → List Str
  | _, [] => []
  | num, e :: rest => mkComment total num e.1 e.2.1 e.2.2 :: mkComments total (num + 1) rest

theorem mkTable_length (total : Nat) (es : List (Str × StoredVal × Nat)) :
    ∀ num, (mkTable total num es).length = es.length := by
  induction es with
  | nil => intro num; rfl
  | cons e rest ih => intro num; simpa [mkTable] using ih (num + 1)

theorem buildHeaderAux_ok (total : Nat) (es : List (Str × StoredVal × Nat)) :
    ∀ num, 620 ≤ num → num + es.length ≤ 2231 →
    buildHeaderAux total num es = .ok (mkComments total num es, mkTable total num es) := by
  induction es with
  | nil => intro num h1 h2; rfl
  | cons e rest ih =>
    intro num h1 h2
    obtain ⟨k, sv, cnt⟩ := e
    have hb : strEnds ("TG:".toList ++ int_to_tag num) LAST_TAG = false := by
      rw [Bool.eq_false_iff]
      intro hc
      have := (header_abort_iff num h1 (by simp at h2; omega)).1 hc
      simp at h2
      omega
    show buildHeaderAux total num ((k, sv, cnt) :: rest) = _
    unfold buildHeaderAux
    rw [hb]
    simp only [Bool.false_eq_true, if_false]
    rw [ih (num + 1) (by omega) (by simp at h2; omega)]
    rfl

theorem buildHeaderAux_error (total : Nat) (es : List (Str × StoredVal × Nat)) :
    ∀ num, 620 ≤ num → num ≤ 2231 → 2231 < num + es.length →
    buildHeaderAux total num es = .error exhaustedMsg := by
  induction es with
  | nil => intro num h1 h2 h3; simp at h3; omega
  | cons e rest ih =>
    intro num h1 h2 h3
    obtain ⟨k, sv, cnt⟩ := e
    show buildHeaderAux total num ((k, sv, cnt) :: rest) = _
    unfold buildHeaderAux
    by_cases hnum : num = 2231
    · rw [(header_abort_iff num h1 h2).2 hnum]
      rfl
    · have hb : strEnds ("TG:".toList ++ int_to_tag num) LAST_TAG = false := by
        rw [Bool.eq_false_iff]
        intro hc
        exact hnum ((header_abort_iff num h1 h2).1 hc)
      rw [hb]
      simp only [Bool.false_eq_true, if_false]
      rw [ih (num + 1) (by omega) (by omega) (by simp at h3; omega)]
      rfl

theorem buildHeader_eq (entries : List (Str × StoredVal × Nat)) (total : Nat) :
    buildHeader entries total =
      if entries.length ≤ 1611 then
        .ok (mkComments total 620 entries, mkTable total 620 entries)
      else .error exhaustedMsg := by
  unfold buildHeader
  have h620 : tag_to_int FIRST_TAG = 620 := by decide
  rw [h620]
  by_cases hlen : entries.length ≤ 1611
  · rw [if_pos hlen]
    exact buildHeaderAux_ok total entries 620 le_rfl (by omega)
  · rw [if_neg hlen]
    exact buildHeaderAux_error total entries 620 le_rfl (by omega) (by omega)

theorem mkTable_get? (total : Nat) (es : List (Str × StoredVal × Nat)) :
    ∀ num i (hi : i < es.length),
    (mkTable total num es).get? i =
      some ((es.get ⟨i, hi⟩).1,
        mkTav total (num + i) (es.get ⟨i, hi⟩).1 (es.get ⟨i, hi⟩).2.1
          (es.get ⟨i, hi⟩).2.2) := by
  induction es with
  | nil => intro num i hi; simp at hi
  | cons e rest ih =>
    intro num i hi
    cases i with
    | zero => rfl
    | succ j =>
      have hj : j < rest.length := by simpa using hi
      have := ih (num + 1) j hj
      simpa [mkTable, Nat.add_assoc, Nat.add_comm 1 j] using this

theorem lookupTab_mkTable (total : Nat) (es : List (Str × StoredVal × Nat)) :
    ∀ num, (es.map (fun e => e.1)).Nodup →
    ∀ i (hi : i < es.length),
    lookupTab (mkTable total num es) (es.get ⟨i, hi⟩).1 =
      some (mkTav total (num + i) (es.get ⟨i, hi⟩).1 (es.get ⟨i, hi⟩).2.1
        (es.get ⟨i, hi⟩).2.2) := by
  induction es with
  | nil => intro num hnd i hi; simp at hi
  | cons e rest ih =>
    intro num hnd i hi
    cases i with
    | zero => simp [mkTable, lookupTab]
    | succ j =>
      have hj : j < rest.length := by simpa using hi
      have hne : e.1 ≠ (rest.get ⟨j, hj⟩).1 := by
        simp only [List.map_cons, List.nodup_cons] at hnd
        intro hcontra
        apply hnd.1
        rw [hcontra]
        exact List.mem_map_of_mem _ (List.get_mem rest j hj)
      have hnd2 : (List.map (fun e => e.1) rest).Nodup := by
        simp only [List.map_cons, List.nodup_cons] at hnd
        exact hnd.2
      have := ih (num + 1) hnd2 j hj
      simp only [mkTable, lookupTab, List.get_cons_succ]
      rw [if_neg hne]
      simpa [Nat.add_assoc, Nat.add_comm 1 j] using this

/-! ### Parsing the stored tag-and-value strings -/

theorem findSub_noCV (d1 d2 : Char) :
    findSub ['T', 'G', ':', d1, d2] "CV:".toList = none := by
  simp [findSub, findSubFrom, strStarts, toList_CVc]

theorem findSub_CV (d1 d2 : Char) (r : Str) :
    findSub ('T' :: 'G' :: ':' :: d1 :: d2 :: ' ' :: 'C' :: 'V' :: ':' :: r)
      "CV:".toList = some 6 := by
  simp [findSub, findSubFrom, strStarts, toList_CVc]

/-- Prefix fact: any string shaped like a written slot starts with
`TG:`. -/
theorem strStarts_TG (d1 d2 : Char) (r : Str) :
    strStarts ('T' :: 'G' :: ':' :: d1 :: d2 :: r) "TG:".toList = true := by
  simp [strStarts, toList_TG]

/-- The encoding-pass parser `get_tag_name_cv` read back on a directory
slot written by the header loop: the tag name round-trips, and the parsed
default is present exactly when the loop appended one. -/
theorem get_tag_name_cv_mkTav (table : TagTable) (k : Str) (total num : Nat)
    (sv : StoredVal) (cnt : Nat)
    (hl : lookupTab table k = some (mkTav total num k sv cnt))
    (h1 : 620 ≤ num) (h2 : num < 2231) :
    get_tag_name_cv table k = .ok (int_to_tag num,
      if is_shared_value cnt total && !containsSub k "read_number".toList then
        some (reprOpt (if cnt = 0 then none
          else some (convert_type (pyOfStored sv)).1))
      else none) := by
  have htag := int_to_tag_two num (by omega) (by omega)
  by_cases hc : (is_shared_value cnt total && !containsSub k "read_number".toList) = true
  · have hmk : mkTav total num k sv cnt =
        'T' :: 'G' :: ':' :: DIGITS.getD (num / 62) '0' :: DIGITS.getD (num % 62) '0' ::
          ' ' :: 'C' :: 'V' :: ':' ::
          reprOpt (if cnt = 0 then none
            else some (convert_type (pyOfStored sv)).1) := by
      unfold mkTav
      rw [hc, htag]
      simp [toList_TG, toList_sCV]
    simp only [get_tag_name_cv, hl, hmk, strStarts_TG, if_true, findSub_CV, hc,
      Option.map_some]
    rw [htag]
    rfl
  · have hc2 : (is_shared_value cnt total && !containsSub k "read_number".toList) = false := by
      simpa using hc
    have hmk : mkTav total num k sv cnt =
        'T' :: 'G' :: ':' :: DIGITS.getD (num / 62) '0' ::
          DIGITS.getD (num % 62) '0' :: [] := by
      unfold mkTav
      rw [hc2, htag]
      simp [toList_TG]
    have hfs : findSub ('T' :: 'G' :: ':' :: DIGITS.getD (num / 62) '0' ::
        DIGITS.getD (num % 62) '0' :: []) "CV:".toList = none :=
      findSub_noCV (DIGITS.getD (num / 62) '0') (DIGITS.getD (num % 62) '0')
    simp only [get_tag_name_cv, hl, hmk, strStarts_TG, if_true, hfs, hc2,
      Option.map_none]
    rw [htag]
    rfl

/-! ### Claim C2: the consensus detector -/

/-- Claim C2: over `total` input files, the directory entry of the `i`-th
discovered key carries a parsed default (`CV`) if and only if its
occurrence count exceeds `total / 2` and the key does not contain
`read_number`; a column key (count `0`) never gets one, and the default,
when present, is the `repr` of the converted stored value. -/
theorem claim_C2_thm (entries : List (Str × StoredVal × Nat)) (total : Nat)
    (cs : List Str) (tbl : TagTable)
    (hnd : (entries.map (fun e => e.1)).Nodup)
    (hok : buildHeader entries total = .ok (cs, tbl))
    (i : Nat) (hi : i < entries.length) (k : Str) (sv : StoredVal) (cnt : Nat)
    (he : entries.get ⟨i, hi⟩ = (k, sv, cnt)) :
    ∃ cvOpt : Option Str,
      get_tag_name_cv tbl k = .ok (int_to_tag (620 + i), cvOpt) ∧
      (cvOpt.isSome ↔
        (is_shared_value cnt total = true ∧
          containsSub k "read_number".toList = false)) ∧
      (cnt = 0 → cvOpt = none) ∧
      (∀ r, cvOpt = some r → r = pyRepr (convert_type (pyOfStored sv)).1) := by
  rw [buildHeader_eq] at hok
  by_cases hlen : entries.length ≤ 1611
  · rw [if_pos hlen] at hok
    have htbl : tbl = mkTable total 620 entries := by
      injection hok with hok
      injection hok with hc ht
      exact ht.symm
    subst htbl
    have hlk := lookupTab_mkTable total entries 620 hnd i hi
    rw [he] at hlk
    have hparse := get_tag_name_cv_mkTav (mkTable total 620 entries) k total
      (620 + i) sv cnt hlk (by omega) (by omega)
    refine ⟨_, hparse, ?_, ?_, ?_⟩
    · by_cases hb : (is_shared_value cnt total && !containsSub k "read_number".toList) = true
      · simp only [Bool.and_eq_true, Bool.not_eq_true'] at hb
        simp [hb.1, hb.2]
      · have hb2 : (is_shared_value cnt total && !containsSub k "read_number".toList) = false := by
          simpa using hb
        rw [hb2]
        simp only [Bool.and_eq_false_iff, Bool.not_eq_false] at hb2
        simp only [if_false, Option.isSome_none, Bool.false_eq_true, false_iff]
        intro hcontra
        rcases hb2 with h | h
        · rw [hcontra.1] at h
          exact absurd h (by simp)
        · rw [hcontra.2] at h
          exact absurd h (by simp)
    · intro h0
      subst h0
      have : is_shared_value 0 total = false := by
        simp [is_shared_value]
      simp [this]
    · intro r hr
      by_cases hb : (is_shared_value cnt total && !containsSub k "read_number".toList) = true
      · rw [if_pos hb] at hr
        have hcne : cnt ≠ 0 := by
          simp only [Bool.and_eq_true] at hb
          have := hb.1
          simp only [is_shared_value, decide_eq_true_eq] at this
          omega
        rw [if_neg hcne] at hr
        injection hr with hr
        exact hr.symm
      · have hb2 : (is_shared_value cnt total && !containsSub k "read_number".toList) = false := by
          simpa using hb
        rw [hb2] at hr
        simp at hr
  · rw [if_neg hlen] at hok
    exact absurd hok (by simp)

/-- Witness: the C2 theorem applied to a two-entry directory over ten
files, one shared attribute key and one column key. -/
theorem claim_C2_witness :
    (∃ cvOpt : Option Str,
      get_tag_name_cv [("/g/a".toList, "TG:a0 CV:7".toList),
        ("/d/c".toList, "TG:a1".toList)] "/g/a".toList =
        .ok (int_to_tag 620, cvOpt) ∧
      (cvOpt.isSome ↔
        (is_shared_value 6 10 = true ∧
          containsSub "/g/a".toList "read_number".toList = false)) ∧
      (6 = 0 → cvOpt = none) ∧
      (∀ r, cvOpt = some r →
        r = pyRepr (convert_type (pyOfStored (.sVal (.pyInt 7)))).1)) := by
  have h := claim_C2_thm
    [("/g/a".toList, .sVal (.pyInt 7), 6), ("/d/c".toList, .sType "i4".toList, 0)]
    10
    ["ATR:'/g/a':i8 TG:a0 CV:7".toList, "COL:'/d/c':i4 TG:a1".toList]
    [("/g/a".toList, "TG:a0 CV:7".toList), ("/d/c".toList, "TG:a1".toList)]
    (by decide) (by rfl) 0 (by decide) "/g/a".toList (.sVal (.pyInt 7)) 6 (by rfl)
  simpa using h

/-! ### Claim C7: the tag allocator -/

/-- The tag-name slice `pair[1][3:5]` of a stored `tag_and_val` string. -/
def tagOfTav (tav : Str) : Str :=
  (tav.drop 3).take 2

theorem tagOfTav_mkTav (total num : Nat) (k : Str) (sv : StoredVal) (cnt : Nat)
    (h1 : 620 ≤ num) (h2 : num < 2231) :
    tagOfTav (mkTav total num k sv cnt) = int_to_tag num := by
  have htag := int_to_tag_two num (by omega) (by omega)
  unfold mkTav
  by_cases hc : (is_shared_value cnt total && !containsSub k "read_number".toList) = true
  · rw [hc, htag]
    simp only [if_true]
    simp [tagOfTav, toList_TG, toList_sCV]
  · have hc2 : (is_shared_value cnt total && !containsSub k "read_number".toList) = false := by
      simpa using hc
    rw [hc2, htag]
    simp only [Bool.false_eq_true, if_false]
    simp [tagOfTav, toList_TG]

/-- Claim C7: the header loop allocates, in insertion order, the code
`int_to_tag (620 + i)` to the `i`-th key — starting at `FIRST_TAG`,
advancing by one, all codes distinct — succeeds exactly when at most 1611
keys exist (so that no key is handed the terminal code `LAST_TAG`), and
no stored slot ever carries `LAST_TAG` as its tag name. -/
theorem claim_C7_thm (entries : List (Str × StoredVal × Nat)) (total : Nat) :
    ((∃ r, buildHeader entries total = .ok r) ↔ entries.length ≤ 1611) ∧
    (∀ cs tbl, buildHeader entries total = .ok (cs, tbl) →
      tbl.length = entries.length ∧
      (∀ i (hi : i < entries.length) (hi2 : i < tbl.length),
        (tbl.get ⟨i, hi2⟩).1 = (entries.get ⟨i, hi⟩).1 ∧
        tagOfTav (tbl.get ⟨i, hi2⟩).2 = int_to_tag (620 + i)) ∧
      (∀ i j (hi : i < tbl.length) (hj : j < tbl.length),
        tagOfTav (tbl.get ⟨i, hi⟩).2 = tagOfTav (tbl.get ⟨j, hj⟩).2 → i = j) ∧
      (∀ i (hi : i < tbl.length), tagOfTav (tbl.get ⟨i, hi⟩).2 ≠ LAST_TAG) ∧
      (∀ h0 : 0 < tbl.length, tagOfTav (tbl.get ⟨0, h0⟩).2 = FIRST_TAG)) := by
  have hiff : (∃ r, buildHeader entries total = .ok r) ↔ entries.length ≤ 1611 := by
    rw [buildHeader_eq]
    by_cases hlen : entries.length ≤ 1611
    · simp [hlen]
    · simp [hlen]
  refine ⟨hiff, ?_⟩
  intro cs tbl hok
  have hlen : entries.length ≤ 1611 := hiff.1 ⟨(cs, tbl), hok⟩
  rw [buildHeader_eq, if_pos hlen] at hok
  have htbl : tbl = mkTable total 620 entries := by
    injection hok with hok
    injection hok with hc ht
    exact ht.symm
  subst htbl
  have hL : (mkTable total 620 entries).length = entries.length :=
    mkTable_length total entries 620
  have hget : ∀ i (hi : i < entries.length) (hi2 : i < (mkTable total 620 entries).length),
      (mkTable total 620 entries).get ⟨i, hi2⟩ =
        ((entries.get ⟨i, hi⟩).1,
          mkTav total (620 + i) (entries.get ⟨i, hi⟩).1 (entries.get ⟨i, hi⟩).2.1
            (entries.get ⟨i, hi⟩).2.2) := by
    intro i hi hi2
    have h1 := mkTable_get? total entries 620 i hi
    rw [List.get?_eq_get hi2] at h1
    exact Option.some.inj h1
  have htagAt : ∀ i (hi : i < entries.length) (hi2 : i < (mkTable total 620 entries).length),
      tagOfTav ((mkTable total 620 entries).get ⟨i, hi2⟩).2 = int_to_tag (620 + i) := by
    intro i hi hi2
    rw [hget i hi hi2]
    exact tagOfTav_mkTav total (620 + i) _ _ _ (by omega) (by omega)
  refine ⟨hL, ?_, ?_, ?_, ?_⟩
  · intro i hi hi2
    refine ⟨?_, htagAt i hi hi2⟩
    rw [hget i hi hi2]
  · intro i j hi hj heq
    have hie : i < entries.length := hL ▸ hi
    have hje : j < entries.length := hL ▸ hj
    rw [htagAt i hie hi, htagAt j hje hj] at heq
    have := int_to_tag_inj (620 + i) (620 + j) (by omega) (by omega) (by omega)
      (by omega) heq
    omega
  · intro i hi heq
    have hie : i < entries.length := hL ▸ hi
    rw [htagAt i hie hi] at heq
    have hlast : LAST_TAG = int_to_tag 2231 := by decide
    rw [hlast] at heq
    have := int_to_tag_inj (620 + i) 2231 (by omega) (by omega) (by omega)
      (by omega) heq
    omega
  · intro h0
    have h0e : 0 < entries.length := hL ▸ h0
    have := htagAt 0 h0e h0
    rw [this]
    decide

/-- Witness: the C7 theorem applied to a one-entry directory; the single
key gets the first code `a0`. -/
theorem claim_C7_witness :
    (∃ r, buildHeader [("/g/a".toList, StoredVal.sVal (.pyInt 1), 1)] 1 = .ok r) ∧
    tagOfTav "TG:a0 CV:1".toList = FIRST_TAG := by
  have h := claim_C7_thm [("/g/a".toList, StoredVal.sVal (.pyInt 1), 1)] 1
  refine ⟨h.1.mpr (by decide), ?_⟩
  have h2 := (h.2 ["ATR:'/g/a':i8 TG:a0 CV:1".toList]
    [("/g/a".toList, "TG:a0 CV:1".toList)] (by rfl)).2.2.2.2 (by decide)
  exact h2

/-! ### Emitted tag names come from the frozen directory -/

theorem except_bind_ok {ε α β : Type} (a : α) (f : α → Except ε β) :
    (Except.ok a >>= f) = f a := rfl

theorem except_bind_err {ε α β : Type} (e : ε) (f : α → Except ε β) :
    ((Except.error e : Except ε α) >>= f) = .error e := rfl

/-- The tag names that the frozen directory can hand to `set_tag`. -/
def tagNames (table : TagTable) : List Str :=
  table.map (fun kv => tagOfTav kv.2)

theorem lookupTab_mem (t : TagTable) (k : Str) (v : Str) :
    lookupTab t k = some v → (k, v) ∈ t := by
  induction t with
  | nil => intro h; simp [lookupTab] at h
  | cons e rest ih =>
    intro h
    obtain ⟨k', v'⟩ := e
    by_cases hk : k' = k
    · subst hk
      simp only [lookupTab, if_pos rfl] at h
      injection h with h
      subst h
      exact List.mem_cons_self _ _
    · simp only [lookupTab, if_neg hk] at h
      exact List.mem_cons_of_mem _ (ih h)

theorem get_tag_name_cv_name (table : TagTable) (k tn : Str) (cv : Option Str) :
    get_tag_name_cv table k = .ok (tn, cv) → tn ∈ tagNames table := by
  intro h
  unfold get_tag_name_cv at h
  split at h
  · exact absurd h (by simp)
  · rename_i tav hl
    split at h
    · injection h with h
      have htn : tn = tagOfTav tav := (congrArg Prod.fst h).symm
      rw [htn]
      exact List.mem_map_of_mem _ (lookupTab_mem table k tav hl)
    · exact absurd h (by simp)

theorem except_pure {ε α : Type} (a : α) :
    (pure a : Except ε α) = Except.ok a := rfl

theorem emitCols_names (table : TagTable) (path : Str)
    (cols : List (Str × ColData)) : ∀ l, emitCols table path cols = .ok l →
    ∀ x ∈ l, x.1 ∈ tagNames table := by
  induction cols with
  | nil =>
    intro l h x hx
    simp only [emitCols, Except.ok.injEq] at h
    subst h
    simp at hx
  | cons col rest ih =>
    intro l h x hx
    simp only [emitCols] at h
    cases hg : get_tag_name_cv table (path ++ "/".toList ++ col.1) with
    | error e =>
      rw [hg] at h
      simp only [except_bind_err] at h
      exact absurd h (by simp)
    | ok pr =>
      obtain ⟨tn, cv⟩ := pr
      rw [hg] at h
      simp only [except_bind_ok] at h
      cases hc : colTagVal col.2 with
      | error e =>
        rw [hc] at h
        simp only [except_bind_err] at h
        exact absurd h (by simp)
      | ok tv =>
        rw [hc] at h
        simp only [except_bind_ok] at h
        cases he : emitCols table path rest with
        | error e =>
          rw [he] at h
          simp only [except_bind_err] at h
          exact absurd h (by simp)
        | ok others =>
          rw [he] at h
          simp only [except_bind_ok, except_pure, Except.ok.injEq] at h
          subst h
          rcases List.mem_cons.mp hx with hx | hx
          · subst hx
            exact get_tag_name_cv_name table _ tn cv hg
          · exact ih others he x hx

theorem process_dataset_emit_names (table : TagTable) (skip : Bool) (path : Str)
    (cols : List (Str × ColData)) (l : List (Str × TagVal)) :
    process_dataset_emit table skip path cols = .ok l →
    ∀ x ∈ l, x.1 ∈ tagNames table := by
  intro h
  unfold process_dataset_emit at h
  split_ifs at h with h1 h2 h3
  · injection h with h; subst h; intro x hx; simp at hx
  · injection h with h; subst h; intro x hx; simp at hx
  · injection h with h; subst h; intro x hx; simp at hx
  · exact emitCols_names table path cols l h

theorem processAttrList_names (table : TagTable) (np : Str)
    (attrs : List (Str × PyObj)) : ∀ l, processAttrList table np attrs = .ok l →
    ∀ x ∈ l, x.1 ∈ tagNames table := by
  induction attrs with
  | nil =>
    intro l h x hx
    simp only [processAttrList, Except.ok.injEq] at h
    subst h
    simp at hx
  | cons a rest ih =>
    intro l h x hx
    simp only [processAttrList] at h
    rcases hcv : convert_type a.2 with ⟨value, hdfty⟩
    rw [hcv] at h
    cases hg : get_tag_name_cv table (np ++ "/".toList ++ a.1) with
    | error e =>
      rw [hg] at h
      simp only [except_bind_err] at h
      exact absurd h (by simp)
    | ok pr =>
      obtain ⟨tn, cv⟩ := pr
      rw [hg] at h
      simp only [except_bind_ok] at h
      by_cases hck : cv ≠ some (pyRepr value)
      · rw [if_pos hck] at h
        cases ht : get_tag_type hdfty with
        | error e =>
          rw [ht] at h
          simp only [except_bind_err] at h
          exact absurd h (by simp)
        | ok tc =>
          rw [ht] at h
          simp only [except_bind_ok] at h
          cases he : processAttrList table np rest with
          | error e =>
            rw [he] at h
            simp only [except_pure, except_bind_err, except_bind_ok] at h
            exact absurd h (by simp)
          | ok others =>
            rw [he] at h
            simp only [except_pure, except_bind_ok, Except.ok.injEq] at h
            subst h
            rcases List.mem_append.mp hx with hx | hx
            · rcases List.mem_singleton.mp hx with rfl
              exact get_tag_name_cv_name table _ tn cv hg
            · exact ih others he x hx
      · rw [if_neg hck] at h
        cases he : processAttrList table np rest with
        | error e =>
          rw [he] at h
          simp only [except_pure, except_bind_err, except_bind_ok] at h
          exact absurd h (by simp)
        | ok others =>
          rw [he] at h
          simp only [except_pure, except_bind_ok, Except.ok.injEq] at h
          subst h
          simp only [List.nil_append] at hx
          exact ih others he x hx

/-! ### Decomposing the per-node and per-read emitters -/

theorem processNode_ok (table : TagTable) (skip : Bool) (node : NodeV)
    (out : NodeOut) (h : processNode table skip node = .ok out) :
    ∃ colTags attrTags,
      (if node.isDS then
        process_dataset_emit table skip (remove_read_number node.name).1 node.cols
      else pure []) = .ok colTags ∧
      processAttrList table (remove_read_number node.name).1 node.attrs = .ok attrTags ∧
      out = ⟨(match (remove_read_number node.name).2 with
              | some rn => [(READ_NUM_TAG, TagVal.tvStr rn)]
              | none => []) ++ colTags ++ attrTags,
             (if is_fastq_path node.name then some node.name else none),
             (remove_read_number node.name).2⟩ := by
  obtain ⟨nm, ds, cols, attrs⟩ := node
  unfold processNode at h
  rcases hrm : remove_read_number nm with ⟨nname, read_num⟩
  rw [hrm] at h
  simp only at h ⊢
  cases ds with
  | true =>
    simp only [eq_self_iff_true, if_true] at h ⊢
    cases hC : process_dataset_emit table skip nname cols with
    | error e =>
      rw [hC] at h
      simp only [except_bind_err] at h
      exact absurd h (by simp)
    | ok colTags =>
      rw [hC] at h
      simp only [except_bind_ok] at h
      cases hA : processAttrList table nname attrs with
      | error e =>
        rw [hA] at h
        simp only [except_bind_err] at h
        exact absurd h (by simp)
      | ok attrTags =>
        rw [hA] at h
        simp only [except_pure, except_bind_ok, Except.ok.injEq] at h
        exact ⟨colTags, attrTags, rfl, rfl, h.symm⟩
  | false =>
    simp only [Bool.false_eq_true, if_false] at h ⊢
    simp only [except_pure, except_bind_ok] at h
    cases hA : processAttrList table nname attrs with
    | error e =>
      rw [hA] at h
      simp only [except_bind_err] at h
      exact absurd h (by simp)
    | ok attrTags =>
      rw [hA] at h
      simp only [except_pure, except_bind_ok, Except.ok.injEq] at h
      exact ⟨[], attrTags, rfl, rfl, h.symm⟩

theorem processNode_filter (table : TagTable) (skip : Bool) (node : NodeV)
    (out : NodeOut)
    (hX0 : ∀ t ∈ tagNames table, t ≠ READ_NUM_TAG)
    (hX1 : ∀ t ∈ tagNames table, t ≠ FILENAME_TAG)
    (h : processNode table skip node = .ok out) :
    out.tags.filter (fun tv => tv.1 == READ_NUM_TAG) =
      (match (remove_read_number node.name).2 with
        | some rn => [(READ_NUM_TAG, TagVal.tvStr rn)]
        | none => []) ∧
    out.tags.filter (fun tv => tv.1 == FILENAME_TAG) = [] := by
  obtain ⟨colTags, attrTags, hC, hA, hout⟩ := processNode_ok table skip node out h
  subst hout
  have hcn : ∀ x ∈ colTags, x.1 ∈ tagNames table := by
    by_cases hds : node.isDS
    · rw [if_pos hds] at hC
      exact process_dataset_emit_names table skip _ node.cols colTags hC
    · rw [if_neg hds] at hC
      simp only [except_pure, Except.ok.injEq] at hC
      subst hC
      intro x hx
      simp at hx
  have han := processAttrList_names table _ node.attrs attrTags hA
  have hcol0 : colTags.filter (fun tv => tv.1 == READ_NUM_TAG) = [] := by
    rw [List.filter_eq_nil_iff]
    intro x hx
    simp only [beq_iff_eq]
    exact hX0 x.1 (hcn x hx)
  have hcol1 : colTags.filter (fun tv => tv.1 == FILENAME_TAG) = [] := by
    rw [List.filter_eq_nil_iff]
    intro x hx
    simp only [beq_iff_eq]
    exact hX1 x.1 (hcn x hx)
  have hatt0 : attrTags.filter (fun tv => tv.1 == READ_NUM_TAG) = [] := by
    rw [List.filter_eq_nil_iff]
    intro x hx
    simp only [beq_iff_eq]
    exact hX0 x.1 (han x hx)
  have hatt1 : attrTags.filter (fun tv => tv.1 == FILENAME_TAG) = [] := by
    rw [List.filter_eq_nil_iff]
    intro x hx
    simp only [beq_iff_eq]
    exact hX1 x.1 (han x hx)
  cases hrn : (remove_read_number node.name).2 with
  | some rn =>
    constructor
    · simp [List.filter_append, hcol0, hatt0]
    · simp only [List.filter_append, hcol1, hatt1, List.append_nil]
      simp [READ_NUM_TAG, FILENAME_TAG]
  | none =>
    constructor
    · simp [List.filter_append, hcol0, hatt0]
    · simp [List.filter_append, hcol1, hatt1]

theorem processRead_filter (table : TagTable) (skip : Bool)
    (hX0 : ∀ t ∈ tagNames table, t ≠ READ_NUM_TAG)
    (hX1 : ∀ t ∈ tagNames table, t ≠ FILENAME_TAG)
    (nodes : List NodeV) : ∀ acc fq0 tags fq,
    processRead table skip nodes (acc, fq0) = .ok (tags, fq) →
    tags.filter (fun tv => tv.1 == READ_NUM_TAG) =
      acc.filter (fun tv => tv.1 == READ_NUM_TAG) ++
        (nodes.filterMap (fun n => (remove_read_number n.name).2)).map
          (fun rn => (READ_NUM_TAG, TagVal.tvStr rn)) ∧
    tags.filter (fun tv => tv.1 == FILENAME_TAG) =
      acc.filter (fun tv => tv.1 == FILENAME_TAG) := by
  induction nodes with
  | nil =>
    intro acc fq0 tags fq h
    simp only [processRead, Except.ok.injEq, Prod.mk.injEq] at h
    obtain ⟨h1, h2⟩ := h
    subst h1
    simp
  | cons n rest ih =>
    intro acc fq0 tags fq h
    simp only [processRead] at h
    cases hN : processNode table skip n with
    | error e =>
      rw [hN] at h
      simp only [except_bind_err] at h
      exact absurd h (by simp)
    | ok out =>
      rw [hN] at h
      simp only [except_bind_ok] at h
      have hrec := ih (acc ++ out.tags) _ tags fq h
      have hnf := processNode_filter table skip n out hX0 hX1 hN
      constructor
      · rw [hrec.1, List.filter_append, hnf.1, List.filterMap_cons]
        cases hrn : (remove_read_number n.name).2 with
        | some rn => simp
        | none => simp
      · rw [hrec.2, List.filter_append, hnf.2, List.append_nil]

theorem pyIndex_chain_tags (pre tags : List (Str × TagVal))
    (lines2 : List (Option Str)) (r : OutRecord)
    (h : (pyIndex lines2 0 >>= fun qname =>
          pyIndex lines2 1 >>= fun qseq =>
          pyIndex lines2 3 >>= fun qqual =>
          pure (⟨pre ++ tags, qname, qseq, qqual⟩ : OutRecord)) = .ok r) :
    r.tags = pre ++ tags := by
  cases h0 : pyIndex lines2 0 with
  | error e => rw [h0] at h; simp only [except_bind_err] at h; exact absurd h (by simp)
  | ok q0 =>
    rw [h0] at h
    simp only [except_bind_ok] at h
    cases h1 : pyIndex lines2 1 with
    | error e => rw [h1] at h; simp only [except_bind_err] at h; exact absurd h (by simp)
    | ok q1 =>
      rw [h1] at h
      simp only [except_bind_ok] at h
      cases h3 : pyIndex lines2 3 with
      | error e =>
        rw [h3] at h
        simp only [except_bind_err] at h
        exact absurd h (by simp)
      | ok q3 =>
        rw [h3] at h
        simp only [except_pure, except_bind_ok, Except.ok.injEq] at h
        rw [← h]

theorem emitRecord_tags (table : TagTable) (skip : Bool) (basename : Str)
    (nodes : List NodeV) (contentOf : Str → Str) (companion : Option (List Str))
    (r : OutRecord)
    (h : emitRecord table skip basename nodes contentOf companion = .ok r) :
    ∃ tags fq, processRead table skip nodes ([], none) = .ok (tags, fq) ∧
      r.tags = (FILENAME_TAG, TagVal.tvStr basename) :: tags := by
  unfold emitRecord at h
  cases hP : processRead table skip nodes ([], none) with
  | error e =>
    rw [hP] at h
    simp only [except_bind_err] at h
    exact absurd h (by simp)
  | ok st =>
    obtain ⟨tags, fq⟩ := st
    rw [hP] at h
    simp only [except_bind_ok] at h
    refine ⟨tags, fq, rfl, ?_⟩
    cases companion with
    | some ls =>
      have h2 : (do
          let lines2 ← read_fastq_from_file ls
          let qname ← pyIndex lines2 0
          let qseq ← pyIndex lines2 1
          let qqual ← pyIndex lines2 3
          pure (⟨[(FILENAME_TAG, TagVal.tvStr basename)] ++ tags,
            qname, qseq, qqual⟩ : OutRecord)) = Except.ok r := h
      cases hRF : read_fastq_from_file ls with
      | error e =>
        rw [hRF] at h2
        simp only [except_bind_err] at h2
        exact absurd h2 (by simp)
      | ok lines2 =>
        rw [hRF] at h2
        simp only [except_bind_ok] at h2
        exact pyIndex_chain_tags _ tags lines2 r h2
    | none =>
      have h2 : (do
          let lines2 ← (pure (embeddedLines contentOf fq) :
              Except EmitErr (List (Option Str)))
          let qname ← pyIndex lines2 0
          let qseq ← pyIndex lines2 1
          let qqual ← pyIndex lines2 3
          pure (⟨[(FILENAME_TAG, TagVal.tvStr basename)] ++ tags,
            qname, qseq, qqual⟩ : OutRecord)) = Except.ok r := h
      simp only [except_pure, except_bind_ok] at h2
      exact pyIndex_chain_tags _ tags _ r h2

/-! ### Claim C9: the reserved tags -/

theorem tagNames_mkTable (total : Nat) (es : List (Str × StoredVal × Nat)) :
    ∀ num, 620 ≤ num → num + es.length ≤ 2231 →
    ∀ t ∈ tagNames (mkTable total num es), ∃ m, 620 ≤ m ∧ m < 2231 ∧
      t = int_to_tag m := by
  induction es with
  | nil =>
    intro num h1 h2 t ht
    simp [tagNames, mkTable] at ht
  | cons e rest ih =>
    intro num h1 h2 t ht
    simp only [mkTable, tagNames, List.map_cons, List.mem_cons] at ht
    rcases ht with ht | ht
    · refine ⟨num, h1, by simp at h2; omega, ?_⟩
      rw [ht]
      exact tagOfTav_mkTav total num e.1 e.2.1 e.2.2 h1 (by simp at h2; omega)
    · exact ih (num + 1) (by omega) (by simp at h2; omega) t ht

/-- Claim C9: the two reserved tag identifiers stay outside the general
allocator's namespace — no slot of a header-built directory carries
`READ_NUM_TAG` or `FILENAME_TAG` as its tag name — and during encoding
they are never subject to default-compression: whatever the directory's
`CV` defaults, the emitted record always carries the file-name tag with
the source base name, and carries exactly one read-number tag per
extracted per-read identifier. -/
theorem claim_C9_thm :
    (∀ (entries : List (Str × StoredVal × Nat)) (total : Nat) (cs : List Str)
      (tbl : TagTable), buildHeader entries total = .ok (cs, tbl) →
      ∀ t ∈ tagNames tbl, t ≠ READ_NUM_TAG ∧ t ≠ FILENAME_TAG) ∧
    (∀ (table : TagTable) (skip : Bool) (basename : Str) (nodes : List NodeV)
      (contentOf : Str → Str) (companion : Option (List Str)) (r : OutRecord),
      (∀ t ∈ tagNames table, t ≠ READ_NUM_TAG ∧ t ≠ FILENAME_TAG) →
      emitRecord table skip basename nodes contentOf companion = .ok r →
      r.tags.filter (fun tv => tv.1 == FILENAME_TAG) =
        [(FILENAME_TAG, TagVal.tvStr basename)] ∧
      r.tags.filter (fun tv => tv.1 == READ_NUM_TAG) =
        (nodes.filterMap (fun n => (remove_read_number n.name).2)).map
          (fun rn => (READ_NUM_TAG, TagVal.tvStr rn))) := by
  constructor
  · intro entries total cs tbl hok t ht
    have hlen : entries.length ≤ 1611 := by
      rw [buildHeader_eq] at hok
      by_cases hl : entries.length ≤ 1611
      · exact hl
      · rw [if_neg hl] at hok
        exact absurd hok (by simp)
    have htbl : tbl = mkTable total 620 entries := by
      rw [buildHeader_eq, if_pos hlen] at hok
      injection hok with hok
      injection hok with hok1 hok2
      exact hok2.symm
    subst htbl
    obtain ⟨m, hm1, hm2, rfl⟩ :=
      tagNames_mkTable total entries 620 le_rfl (by omega) t ht
    constructor
    · intro hcontra
      have hX0 : READ_NUM_TAG = int_to_tag 3658 := by decide
      rw [hX0] at hcontra
      have := int_to_tag_inj m 3658 (by omega) (by omega) (by omega) (by omega)
        hcontra
      omega
    · intro hcontra
      have hX1 : FILENAME_TAG = int_to_tag 3659 := by decide
      rw [hX1] at hcontra
      have := int_to_tag_inj m 3659 (by omega) (by omega) (by omega) (by omega)
        hcontra
      omega
  · intro table skip basename nodes contentOf companion r hres hrec
    obtain ⟨tags, fq, hP, htags⟩ :=
      emitRecord_tags table skip basename nodes contentOf companion r hrec
    have hX0 : ∀ t ∈ tagNames table, t ≠ READ_NUM_TAG := fun t ht => (hres t ht).1
    have hX1 : ∀ t ∈ tagNames table, t ≠ FILENAME_TAG := fun t ht => (hres t ht).2
    have hfil := processRead_filter table skip hX0 hX1 nodes [] none tags fq hP
    rw [htags]
    constructor
    · show ((FILENAME_TAG, TagVal.tvStr basename) :: tags).filter
        (fun tv => tv.1 == FILENAME_TAG) = _
      rw [List.filter_cons_of_pos (by simp)]
      rw [hfil.2]
      simp
    · show ((FILENAME_TAG, TagVal.tvStr basename) :: tags).filter
        (fun tv => tv.1 == READ_NUM_TAG) = _
      rw [List.filter_cons_of_neg (by simp [FILENAME_TAG, READ_NUM_TAG])]
      rw [hfil.1]
      simp

/-- Witness: the C9 theorem applied to a one-entry header directory and a
one-node read over it. -/
theorem claim_C9_witness :
    (∀ t ∈ tagNames [("/g/a".toList, "TG:a0 CV:1".toList)],
      t ≠ READ_NUM_TAG ∧ t ≠ FILENAME_TAG) ∧
    (⟨[(FILENAME_TAG, TagVal.tvStr "f.fast5".toList),
        ("a0".toList, TagVal.tvInt 5)], some "nofastq".toList, none, none⟩ :
        OutRecord).tags.filter (fun tv => tv.1 == FILENAME_TAG) =
      [(FILENAME_TAG, TagVal.tvStr "f.fast5".toList)] := by
  have h1 := claim_C9_thm.1 [("/g/a".toList, .sVal (.pyInt 1), 1)] 1
    ["ATR:'/g/a':i8 TG:a0 CV:1".toList] [("/g/a".toList, "TG:a0 CV:1".toList)]
    (by rfl)
  have h2 := claim_C9_thm.2 [("/g/a".toList, "TG:a0 CV:1".toList)] false
    "f.fast5".toList [⟨"/g".toList, false, [], [("a".toList, .pyInt 5)]⟩]
    (fun _ => []) none
    ⟨[(FILENAME_TAG, TagVal.tvStr "f.fast5".toList),
      ("a0".toList, TagVal.tvInt 5)], some "nofastq".toList, none, none⟩
    h1 (by rfl)
  exact ⟨h1, h2.1⟩

/-! ### Claim C1: the schema-conflict abort -/

/-- A node with no dataset part never aborts discovery: it only runs the
attribute loop. -/
theorem pre_process_node_attrOnly (d : SchemaDir) (n : DNode)
    (hds : n.isDS = false) :
    pre_process_node d n =
      .ok (process_group_attrs (remove_read_number n.path).1 d n.attrs) := by
  simp only [pre_process_node, hds, Bool.false_eq_true, if_false, except_pure,
    except_bind_ok]

/-- Claim C1 is false as stated: two files present the same canonical
attribute key with incompatible types (integer `42` against text
`"42"`); discovery does not abort — it succeeds, keeping the first value
with count 1 — because attribute observations are never type-checked. -/
theorem claim_C1_counterexample :
    types_equal (convert_type (PyObj.pyInt 42)).2
      (convert_type (PyObj.pyStr "42".toList)).2 = false ∧
    discoverFiles
      [[⟨"/g".toList, false, [], [("a".toList, .pyInt 42)]⟩],
       [⟨"/g".toList, false, [], [("a".toList, .pyStr "42".toList)]⟩]] =
      .ok [("/g/a".toList, .sVal (.pyInt 42), 1)] :=
  ⟨by decide, by rfl⟩

/-- Claim C1 amended: the schema-conflict abort — an error naming the
key and both conflicting type descriptors — fires for dataset-column
observations whose converted type is not `types_equal` to the stored
descriptor; scalar-attribute observations are never type-checked, so a
node carrying only attributes always leaves discovery in the success
path. -/
theorem claim_C1_thm :
    (∀ (d : SchemaDir) (path cn cts t1 : Str) (c : Nat),
      is_fastq_path path = false →
      lookupDir d (path ++ "/".toList ++ cn) = some (.sType t1, c) →
      types_equal t1 (convert_t cts) = false →
      process_dataset d path [(cn, cts)] =
        .error (.conflict
          (conflictMsg (path ++ "/".toList ++ cn) t1 (convert_t cts)))) ∧
    (∀ (d : SchemaDir) (n : DNode), n.isDS = false →
      pre_process_node d n =
        .ok (process_group_attrs (remove_read_number n.path).1 d n.attrs)) := by
  constructor
  · intro d path cn cts t1 c h1 hl h3
    simp only [process_dataset, h1, Bool.false_eq_true, if_false, process_columns]
    rw [hl]
    simp only [storedAsTypeStr, h3, Bool.false_eq_true, if_false]
  · exact fun d n hds => pre_process_node_attrOnly d n hds

/-- Witness: the amended C1 theorem at a concrete column conflict and a
concrete attribute-only node. -/
theorem claim_C1_witness :
    process_dataset [("/d/c".toList, .sType "i8".toList, 0)] "/d".toList
      [("c".toList, "<U2".toList)] =
      .error (.conflict
        (conflictMsg "/d/c".toList "i8".toList "U2".toList)) ∧
    pre_process_node [] ⟨"/g".toList, false, [], [("a".toList, .pyInt 1)]⟩ =
      .ok (process_group_attrs "/g".toList [] [("a".toList, .pyInt 1)]) := by
  constructor
  · have h := claim_C1_thm.1 [("/d/c".toList, .sType "i8".toList, 0)] "/d".toList
      "c".toList "<U2".toList "i8".toList 0 (by decide) (by rfl) (by decide)
    simpa using h
  · exact claim_C1_thm.2 [] ⟨"/g".toList, false, [], [("a".toList, .pyInt 1)]⟩
      (by decide)

/-! ### Claim C8: occurrence counting -/

/-- Claim C8 is false as stated: one single multiplexed file with two
read groups presenting the same attribute and value yields occurrence
count 2, although only 1 input file presented the attribute — the count
is per observation, not per file. -/
theorem claim_C8_counterexample :
    discoverFiles [[⟨"/read_1".toList, false, [], [("a".toList, .pyInt 42)]⟩,
                    ⟨"/read_2".toList, false, [], [("a".toList, .pyInt 42)]⟩]] =
      .ok [("/read_XXX/a".toList, .sVal (.pyInt 42), 2)] ∧
    [[DNode.mk "/read_1".toList false [] [("a".toList, .pyInt 42)],
      DNode.mk "/read_2".toList false [] [("a".toList, .pyInt 42)]]].length = 1 :=
  ⟨by rfl, rfl⟩

/-- The attribute observations of one file, in visitation order:
canonical key and value of every attribute of every node. -/
def obsOfFile (f : List DNode) : List (Str × PyObj) :=
  (f.map (fun n =>
    n.attrs.map (fun a =>
      ((remove_read_number n.path).1 ++ "/".toList ++ a.1, a.2)))).flatten

/-- All attribute observations of a corpus, in discovery order. -/
def attrObs (files : List (List DNode)) : List (Str × PyObj) :=
  (files.map obsOfFile).flatten

/-- The values observed for one canonical key, in order. -/
def valuesFor (k : Str) (obs : List (Str × PyObj)) : List PyObj :=
  (obs.filter (fun o => o.1 == k)).map (fun o => o.2)

/-- How many of the observed values compare equal (Python `==`) to the
stored slot. -/
def countEq (sv : StoredVal) (vs : List PyObj) : Nat :=
  (vs.filter (fun v => pyEqStored sv v)).length

/-- The directory entry the observed value sequence should produce: none
when the key was never observed, else the first value with one count for
it plus one per later equal value. -/
def specEntry : List PyObj → Option (StoredVal × Nat)
  | [] => none
  | v :: rest => some (.sVal v, 1 + countEq (.sVal v) rest)

theorem countEq_nil (sv : StoredVal) : countEq sv [] = 0 := rfl

theorem countEq_cons (sv : StoredVal) (v : PyObj) (vs : List PyObj) :
    countEq sv (v :: vs) =
      (if pyEqStored sv v then 1 else 0) + countEq sv vs := by
  by_cases h : pyEqStored sv v = true
  · simp [countEq, h, Nat.add_comm]
  · have h2 : pyEqStored sv v = false := by simpa using h
    simp [countEq, h2]

theorem lookupDir_update_ne (d : SchemaDir) (k1 k : Str) (p : StoredVal × Nat)
    (h : k1 ≠ k) : lookupDir (updateDir d k1 p) k = lookupDir d k := by
  induction d with
  | nil => rfl
  | cons e rest ih =>
    obtain ⟨ke, pe⟩ := e
    by_cases hke : ke = k1
    · subst hke
      simp only [updateDir, if_pos rfl, lookupDir, if_neg h]
    · simp only [updateDir, if_neg hke, lookupDir]
      by_cases hkk : ke = k
      · rw [if_pos hkk, if_pos hkk]
      · rw [if_neg hkk, if_neg hkk, ih]

theorem lookupDir_update_self (d : SchemaDir) (k : Str) (p q : StoredVal × Nat)
    (h : lookupDir d k = some q) : lookupDir (updateDir d k p) k = some p := by
  induction d with
  | nil => simp [lookupDir] at h
  | cons e rest ih =>
    obtain ⟨ke, pe⟩ := e
    by_cases hke : ke = k
    · subst hke
      simp [updateDir, lookupDir]
    · simp only [lookupDir, if_neg hke] at h
      simp only [updateDir, if_neg hke, lookupDir, if_neg hke]
      exact ih h

theorem lookupDir_append_single (d : SchemaDir) (k1 k : Str) (p : StoredVal × Nat) :
    lookupDir (d ++ [(k1, p)]) k =
      match lookupDir d k with
      | some v => some v
      | none => if k1 = k then some p else none := by
  induction d with
  | nil => simp [lookupDir]
  | cons e rest ih =>
    obtain ⟨ke, pe⟩ := e
    by_cases hke : ke = k
    · simp [lookupDir, hke]
    · simp only [List.cons_append, lookupDir, if_neg hke]
      exact ih

theorem lookupDir_attrStep_ne (d : SchemaDir) (fk : Str) (v : PyObj) (k : Str)
    (h : fk ≠ k) : lookupDir (attrStep d fk v) k = lookupDir d k := by
  unfold attrStep
  cases hl : lookupDir d fk with
  | none =>
    rw [lookupDir_append_single]
    cases lookupDir d k with
    | none => simp [if_neg h]
    | some q => rfl
  | some p =>
    obtain ⟨sv, c⟩ := p
    show lookupDir (if pyEqStored sv v then updateDir d fk (sv, c + 1) else d) k =
      lookupDir d k
    by_cases hp : pyEqStored sv v = true
    · rw [if_pos hp]
      exact lookupDir_update_ne d fk k (sv, c + 1) h
    · rw [if_neg hp]

theorem lookupDir_attrStep_self (d : SchemaDir) (k : Str) (v : PyObj) :
    lookupDir (attrStep d k v) k =
      match lookupDir d k with
      | some (sv, c) => some (sv, if pyEqStored sv v then c + 1 else c)
      | none => some (.sVal v, 1) := by
  unfold attrStep
  cases hl : lookupDir d k with
  | none =>
    rw [lookupDir_append_single, hl]
    simp
  | some p =>
    obtain ⟨sv, c⟩ := p
    show lookupDir (if pyEqStored sv v then updateDir d k (sv, c + 1) else d) k =
      some (sv, if pyEqStored sv v then c + 1 else c)
    by_cases hp : pyEqStored sv v = true
    · rw [if_pos hp, if_pos hp]
      exact lookupDir_update_self d k (sv, c + 1) (sv, c) hl
    · rw [if_neg hp, if_neg hp, hl]

theorem attrStep_fold_lookup (obs : List (Str × PyObj)) : ∀ (d : SchemaDir) (k : Str),
    lookupDir (obs.foldl (fun d o => attrStep d o.1 o.2) d) k =
      match lookupDir d k with
      | some (sv, c) => some (sv, c + countEq sv (valuesFor k obs))
      | none => specEntry (valuesFor k obs) := by
  induction obs with
  | nil =>
    intro d k
    simp only [List.foldl_nil, valuesFor, List.filter_nil, List.map_nil]
    cases lookupDir d k with
    | none => rfl
    | some p => obtain ⟨sv, c⟩ := p; simp [countEq_nil]
  | cons o rest ih =>
    intro d k
    obtain ⟨ok1, ov⟩ := o
    simp only [List.foldl_cons]
    rw [ih (attrStep d ok1 ov) k]
    by_cases hk : ok1 = k
    · subst hk
      have hvf : valuesFor ok1 ((ok1, ov) :: rest) = ov :: valuesFor ok1 rest := by
        simp [valuesFor, List.filter_cons]
      rw [hvf]
      rw [lookupDir_attrStep_self d ok1 ov]
      cases hl : lookupDir d ok1 with
      | none => simp [specEntry]
      | some p =>
        obtain ⟨sv, c⟩ := p
        simp only [countEq_cons]
        by_cases hp : pyEqStored sv ov = true
        · simp only [hp, if_true]
          congr 1
          congr 1
          omega
        · have hp2 : pyEqStored sv ov = false := by simpa using hp
          simp only [hp2, Bool.false_eq_true, if_false]
          congr 1
          congr 1
          omega
    · have hvf : valuesFor k ((ok1, ov) :: rest) = valuesFor k rest := by
        simp [valuesFor, List.filter_cons, hk]
      rw [hvf, lookupDir_attrStep_ne d ok1 ov k hk]

theorem process_group_attrs_eq_fold (np : Str) :
    ∀ (attrs : List (Str × PyObj)) (d : SchemaDir),
    process_group_attrs np d attrs =
      (attrs.map (fun a => (np ++ "/".toList ++ a.1, a.2))).foldl
        (fun d o => attrStep d o.1 o.2) d := by
  intro attrs
  induction attrs with
  | nil => intro d; rfl
  | cons a rest ih =>
    intro d
    simp only [process_group_attrs, List.map_cons, List.foldl_cons]
    exact ih (attrStep d (np ++ "/".toList ++ a.1) a.2)

theorem discoverNodes_attr (f : List DNode) (hf : ∀ n ∈ f, n.isDS = false) :
    ∀ d, discoverNodes d f =
      .ok ((obsOfFile f).foldl (fun d o => attrStep d o.1 o.2) d) := by
  induction f with
  | nil => intro d; rfl
  | cons n rest ih =>
    intro d
    have hn : n.isDS = false := hf n (List.mem_cons_self n rest)
    have hpre := pre_process_node_attrOnly d n hn
    simp only [discoverNodes]
    rw [hpre]
    show discoverNodes (process_group_attrs (remove_read_number n.path).1 d n.attrs)
      rest = _
    rw [ih (fun m hm => hf m (List.mem_cons_of_mem _ hm)),
      process_group_attrs_eq_fold]
    have hobs : obsOfFile (n :: rest) =
        (n.attrs.map (fun a =>
          ((remove_read_number n.path).1 ++ "/".toList ++ a.1, a.2))) ++
          obsOfFile rest := by
      simp [obsOfFile]
    rw [hobs, List.foldl_append]

theorem discoverFilesAux_attr (files : List (List DNode))
    (hall : ∀ f ∈ files, ∀ n ∈ f, n.isDS = false) :
    ∀ d, discoverFilesAux d files =
      .ok ((attrObs files).foldl (fun d o => attrStep d o.1 o.2) d) := by
  induction files with
  | nil => intro d; rfl
  | cons f rest ih =>
    intro d
    have hf := hall f (List.mem_cons_self f rest)
    simp only [discoverFilesAux]
    rw [discoverNodes_attr f hf d]
    show discoverFilesAux ((obsOfFile f).foldl (fun d o => attrStep d o.1 o.2) d)
      rest = _
    rw [ih (fun g hg => hall g (List.mem_cons_of_mem _ hg))]
    have hobs : attrObs (f :: rest) = obsOfFile f ++ attrObs rest := by
      simp [attrObs]
    rw [hobs, List.foldl_append]

/-- Claim C8 amended: for a corpus of attribute-only nodes, discovery
succeeds and every key's stored entry is the first observed value with a
count of one for that first observation plus one per later observation —
one per visited node per file, multiplexed files contributing one per
read group — whose value compares equal to the first; the count is
per-observation, not per input file. -/
theorem claim_C8_thm (files : List (List DNode))
    (hall : ∀ f ∈ files, ∀ n ∈ f, n.isDS = false) :
    discoverFiles files =
      .ok ((attrObs files).foldl (fun d o => attrStep d o.1 o.2) []) ∧
    (∀ k, lookupDir ((attrObs files).foldl (fun d o => attrStep d o.1 o.2) []) k =
      specEntry (valuesFor k (attrObs files))) := by
  constructor
  · exact discoverFilesAux_attr files hall []
  · intro k
    rw [attrStep_fold_lookup]
    rfl

/-- Witness: the amended C8 theorem at a concrete two-observation
multiplexed corpus. -/
theorem claim_C8_witness :
    discoverFiles [[⟨"/read_1".toList, false, [], [("a".toList, .pyInt 42)]⟩,
        ⟨"/read_2".toList, false, [], [("a".toList, .pyInt 42)]⟩]] =
      .ok ((attrObs [[⟨"/read_1".toList, false, [], [("a".toList, .pyInt 42)]⟩,
        ⟨"/read_2".toList, false, [], [("a".toList, .pyInt 42)]⟩]]).foldl
          (fun d o => attrStep d o.1 o.2) []) ∧
    lookupDir ((attrObs [[⟨"/read_1".toList, false, [], [("a".toList, .pyInt 42)]⟩,
        ⟨"/read_2".toList, false, [], [("a".toList, .pyInt 42)]⟩]]).foldl
          (fun d o => attrStep d o.1 o.2) []) "/read_XXX/a".toList =
      specEntry (valuesFor "/read_XXX/a".toList
        (attrObs [[⟨"/read_1".toList, false, [], [("a".toList, .pyInt 42)]⟩,
          ⟨"/read_2".toList, false, [], [("a".toList, .pyInt 42)]⟩]])) := by
  have h := claim_C8_thm
    [[⟨"/read_1".toList, false, [], [("a".toList, .pyInt 42)]⟩,
      ⟨"/read_2".toList, false, [], [("a".toList, .pyInt 42)]⟩]]
    (by decide)
  exact ⟨h.1, h.2 "/read_XXX/a".toList⟩

/-! ### Claim C4: sequence payload resolution -/

/-- Claim C4 is false as stated: an embedded fastq node whose content
splits into five lines is accepted without any abort — the record is
built from lines 0, 1 and 3 and the extra line is silently ignored; only
the companion file is validated to exactly four lines. -/
theorem claim_C4_counterexample :
    (splitlines "l1\nl2\nl3\nl4\nl5".toList).length = 5 ∧
    emitRecord [] false "f".toList
      [⟨"/a/BaseCalled_template/Fastq".toList, true,
        [("noname".toList, .scalarBytes "x".toList)], []⟩]
      (fun _ => "l1\nl2\nl3\nl4\nl5".toList) none =
      .ok ⟨[(FILENAME_TAG, .tvStr "f".toList)], some "l1".toList,
        some "l2".toList, some "l4".toList⟩ :=
  ⟨by decide, by rfl⟩

/-- Claim C4 amended: the exactly-four-lines validation with abort
applies only to the companion file, and the companion always overrides
the embedded content; the embedded fastq node's split content is used
without a line-count check — fewer than four lines crash through the
index error, four or more lines are accepted silently, using lines 0, 1
and 3; with neither source the placeholder line list is used. -/
theorem claim_C4_thm :
    (∀ (table : TagTable) (skip : Bool) (basename : Str) (nodes : List NodeV)
      (contentOf : Str → Str) (ls : List Str) (tags : List (Str × TagVal))
      (fq : Option Str),
      processRead table skip nodes ([], none) = .ok (tags, fq) →
      ls.length ≠ 4 →
      emitRecord table skip basename nodes contentOf (some ls) =
        .error .invalidFastq) ∧
    (∀ (table : TagTable) (skip : Bool) (basename : Str) (nodes : List NodeV)
      (contentOf : Str → Str) (a b c d : Str) (tags : List (Str × TagVal))
      (fq : Option Str),
      processRead table skip nodes ([], none) = .ok (tags, fq) →
      emitRecord table skip basename nodes contentOf (some [a, b, c, d]) =
        .ok ⟨(FILENAME_TAG, .tvStr basename) :: tags, some a, some b, some d⟩) ∧
    (∀ (table : TagTable) (skip : Bool) (basename : Str) (nodes : List NodeV)
      (contentOf : Str → Str) (p : Str) (tags : List (Str × TagVal)),
      processRead table skip nodes ([], none) = .ok (tags, some p) →
      (splitlines (contentOf p)).length < 4 →
      emitRecord table skip basename nodes contentOf none =
        .error .indexFastq) ∧
    (∀ (table : TagTable) (skip : Bool) (basename : Str) (nodes : List NodeV)
      (contentOf : Str → Str) (p : Str) (tags : List (Str × TagVal)),
      processRead table skip nodes ([], none) = .ok (tags, some p) →
      4 ≤ (splitlines (contentOf p)).length →
      emitRecord table skip basename nodes contentOf none =
        .ok ⟨(FILENAME_TAG, .tvStr basename) :: tags,
          (splitlines (contentOf p)).get? 0, (splitlines (contentOf p)).get? 1,
          (splitlines (contentOf p)).get? 3⟩) ∧
    (∀ (table : TagTable) (skip : Bool) (basename : Str) (nodes : List NodeV)
      (contentOf : Str → Str) (tags : List (Str × TagVal)),
      processRead table skip nodes ([], none) = .ok (tags, none) →
      emitRecord table skip basename nodes contentOf none =
        .ok ⟨(FILENAME_TAG, .tvStr basename) :: tags, some "nofastq".toList,
          none, none⟩) := by
  refine ⟨?_, ?_, ?_, ?_, ?_⟩
  · intro table skip basename nodes contentOf ls tags fq hP hlen
    unfold emitRecord
    rw [hP]
    simp only [except_bind_ok]
    show (do
        let lines2 ← read_fastq_from_file ls
        let qname ← pyIndex lines2 0
        let qseq ← pyIndex lines2 1
        let qqual ← pyIndex lines2 3
        pure (⟨[(FILENAME_TAG, TagVal.tvStr basename)] ++ tags,
          qname, qseq, qqual⟩ : OutRecord)) = Except.error EmitErr.invalidFastq
    rw [show read_fastq_from_file ls = .error .invalidFastq by
      simp [read_fastq_from_file, hlen]]
    rfl
  · intro table skip basename nodes contentOf a b c d tags fq hP
    unfold emitRecord
    rw [hP]
    simp only [except_bind_ok]
    rfl
  · intro table skip basename nodes contentOf p tags hP hlen
    unfold emitRecord
    rw [hP]
    simp only [except_bind_ok]
    show (do
        let lines2 ← (pure (embeddedLines contentOf (some p)) :
          Except EmitErr (List (Option Str)))
        let qname ← pyIndex lines2 0
        let qseq ← pyIndex lines2 1
        let qqual ← pyIndex lines2 3
        pure (⟨[(FILENAME_TAG, TagVal.tvStr basename)] ++ tags,
          qname, qseq, qqual⟩ : OutRecord)) = Except.error EmitErr.indexFastq
    rcases hl : splitlines (contentOf p) with _ | ⟨l0, _ | ⟨l1, _ | ⟨l2, _ | ⟨l3, lrest⟩⟩⟩⟩
    · simp only [embeddedLines, hl]
      rfl
    · simp only [embeddedLines, hl]
      rfl
    · simp only [embeddedLines, hl]
      rfl
    · simp only [embeddedLines, hl]
      rfl
    · rw [hl] at hlen
      simp only [List.length_cons] at hlen
      omega
  · intro table skip basename nodes contentOf p tags hP hlen
    unfold emitRecord
    rw [hP]
    simp only [except_bind_ok]
    show (do
        let lines2 ← (pure (embeddedLines contentOf (some p)) :
          Except EmitErr (List (Option Str)))
        let qname ← pyIndex lines2 0
        let qseq ← pyIndex lines2 1
        let qqual ← pyIndex lines2 3
        pure (⟨[(FILENAME_TAG, TagVal.tvStr basename)] ++ tags,
          qname, qseq, qqual⟩ : OutRecord)) = _
    rcases hl : splitlines (contentOf p) with _ | ⟨l0, _ | ⟨l1, _ | ⟨l2, _ | ⟨l3, lrest⟩⟩⟩⟩
    · rw [hl] at hlen; simp only [List.length_nil] at hlen; omega
    · rw [hl] at hlen; simp only [List.length_cons, List.length_nil] at hlen; omega
    · rw [hl] at hlen; simp only [List.length_cons, List.length_nil] at hlen; omega
    · rw [hl] at hlen; simp only [List.length_cons, List.length_nil] at hlen; omega
    · simp only [embeddedLines, hl]
      rfl
  · intro table skip basename nodes contentOf tags hP
    unfold emitRecord
    rw [hP]
    simp only [except_bind_ok]
    rfl

/-- Witness: the amended C4 theorem at a concrete one-line companion
file (abort) and a concrete four-line companion. -/
theorem claim_C4_witness :
    emitRecord [] false "f".toList [] (fun _ => []) (some ["x".toList]) =
      .error .invalidFastq ∧
    emitRecord [] false "f".toList [] (fun _ => [])
        (some ["n".toList, "s".toList, "+".toList, "q".toList]) =
      .ok ⟨[(FILENAME_TAG, .tvStr "f".toList)], some "n".toList, some "s".toList,
        some "q".toList⟩ := by
  constructor
  · exact claim_C4_thm.1 [] false "f".toList [] (fun _ => []) ["x".toList] [] none
      (by rfl) (by decide)
  · exact claim_C4_thm.2.1 [] false "f".toList [] (fun _ => []) "n".toList
      "s".toList "+".toList "q".toList [] none (by rfl)

/-! ### Claim C5: raw-signal suppression -/

/-- Claim C5 is false as stated: with the suppression flag set, a
raw-signal dataset node's column tags are skipped, but an attribute
sitting on that very node — whose canonical key lies under the raw-signal
subtree — is still emitted (tag `a1` below), alongside the read-number
tag. -/
theorem claim_C5_counterexample :
    is_signal_path "/Raw/Reads/Read_XXX/Signal".toList = true ∧
    processNode [("/Raw/Reads/Read_XXX/Signal/noname".toList, "TG:a0".toList),
        ("/Raw/Reads/Read_XXX/Signal/offset".toList, "TG:a1".toList)] true
      ⟨"/Raw/Reads/Read_5/Signal".toList, true,
        [("noname".toList, .arr [.cInt 1])], [("offset".toList, .pyInt 3)]⟩ =
      .ok ⟨[(READ_NUM_TAG, .tvStr "5".toList), ("a1".toList, .tvInt 3)], none,
        some "5".toList⟩ :=
  ⟨by decide, by rfl⟩

theorem pde_skip_signal (table : TagTable) (p : Str) (cols : List (Str × ColData))
    (h : is_signal_path p = true ∨ is_events_path p = true) :
    process_dataset_emit table true p cols = .ok [] := by
  unfold process_dataset_emit
  rcases h with h | h
  · simp [h]
  · by_cases hs : is_signal_path p = true
    · simp [hs]
    · have hs2 : is_signal_path p = false := by simpa using hs
      simp [hs2, h]

theorem pde_skip_irrel (table : TagTable) (p : Str) (cols : List (Str × ColData))
    (hs : is_signal_path p = false) (he : is_events_path p = false) (sk : Bool) :
    process_dataset_emit table sk p cols = process_dataset_emit table false p cols := by
  unfold process_dataset_emit
  simp [hs, he]

/-- Claim C5 amended: with the suppression flag set, exactly the dataset
column tags of nodes whose normalized path is itself a raw-signal node
(contains `/Raw` and ends `/Signal`) or a derived-events node (ends
`/Events`) are omitted — such a node behaves as if it had no columns,
while its attributes (and the read-number tag) are still emitted; every
node whose normalized path is neither is processed exactly as it would be
without the flag, whatever the flag's value. -/
theorem claim_C5_thm :
    (∀ (table : TagTable) (node : NodeV),
      (is_signal_path (remove_read_number node.name).1 = true ∨
       is_events_path (remove_read_number node.name).1 = true) →
      processNode table true node =
        processNode table true ⟨node.name, node.isDS, [], node.attrs⟩) ∧
    (∀ (table : TagTable) (skip : Bool) (node : NodeV),
      is_signal_path (remove_read_number node.name).1 = false →
      is_events_path (remove_read_number node.name).1 = false →
      processNode table skip node = processNode table false node) := by
  constructor
  · intro table node hcond
    obtain ⟨nm, ds, cols, attrs⟩ := node
    simp only at hcond
    cases ds with
    | true =>
      unfold processNode
      rcases hrm : remove_read_number nm with ⟨nname, rn⟩
      rw [hrm] at hcond
      simp only at hcond ⊢
      rw [pde_skip_signal table nname cols hcond,
        pde_skip_signal table nname [] hcond]
    | false => rfl
  · intro table skip node hs he
    obtain ⟨nm, ds, cols, attrs⟩ := node
    simp only at hs he
    cases ds with
    | true =>
      unfold processNode
      rcases hrm : remove_read_number nm with ⟨nname, rn⟩
      rw [hrm] at hs he
      simp only at hs he ⊢
      rw [pde_skip_irrel table nname cols hs he skip]
    | false =>
      unfold processNode
      rfl

/-- Witness: the amended C5 theorem at a concrete signal dataset node and
a concrete plain group node. -/
theorem claim_C5_witness :
    processNode [] true ⟨"/Raw/x/Signal".toList, true,
        [("noname".toList, .arr [])], []⟩ =
      processNode [] true ⟨"/Raw/x/Signal".toList, true, [], []⟩ ∧
    processNode [] true ⟨"/g".toList, false, [], []⟩ =
      processNode [] false ⟨"/g".toList, false, [], []⟩ := by
  constructor
  · exact claim_C5_thm.1 [] ⟨"/Raw/x/Signal".toList, true,
      [("noname".toList, .arr [])], []⟩ (by decide)
  · exact claim_C5_thm.2 [] true ⟨"/g".toList, false, [], []⟩ (by decide) (by decide)

/-! ### Claim C3: the path normalizer -/

/-- The per-read marker token. -/
def readMarker : Str := "/read_".toList

/-- A decimal-integer identifier token, as the claim words it. -/
def isDecimalToken (d : Str) : Prop :=
  d ≠ [] ∧ ∀ c ∈ d, c.isDigit = true

/-- A UUID-like identifier token in the canonical hyphenated 8-4-4-4-12
shape over word characters. -/
def isUUIDToken (d : Str) : Prop :=
  ∃ w8 w4a w4b w4c w12 : Str,
    d = w8 ++ ['-'] ++ w4a ++ ['-'] ++ w4b ++ ['-'] ++ w4c ++ ['-'] ++ w12 ∧
    w8.length = 8 ∧ w4a.length = 4 ∧ w4b.length = 4 ∧ w4c.length = 4 ∧
    w12.length = 12 ∧
    (∀ c ∈ w8, isWordChar c = true) ∧ (∀ c ∈ w4a, isWordChar c = true) ∧
    (∀ c ∈ w4b, isWordChar c = true) ∧ (∀ c ∈ w4c, isWordChar c = true) ∧
    (∀ c ∈ w12, isWordChar c = true)

/-- A path-segment boundary after the identifier: end of path or a new
segment. -/
def segBoundary (suf : Str) : Prop :=
  suf = [] ∨ ∃ r, suf = '/' :: r

/-- Two raw paths that differ only in a per-read instance identifier
following the marker token at a path-segment boundary (the claim's
hypothesis). -/
def differOnlyInReadId (p1 p2 : Str) : Prop :=
  ∃ pre d1 d2 suf,
    p1 = pre ++ readMarker ++ d1 ++ suf ∧
    p2 = pre ++ readMarker ++ d2 ++ suf ∧
    (isDecimalToken d1 ∨ isUUIDToken d1) ∧
    (isDecimalToken d2 ∨ isUUIDToken d2) ∧
    segBoundary suf ∧ d1 ≠ d2

/-- Claim C3 is false as stated: the two paths `/read_1/read_2` and
`/read_9/read_2` differ only in the decimal identifier of their first
marker segment, yet the normalizer — whose leading `.*` is greedy, so the
rightmost marker wins — maps them to the distinct canonical keys
`/read_1/read_XXX` and `/read_9/read_XXX`. -/
theorem claim_C3_counterexample :
    differOnlyInReadId "/read_1/read_2".toList "/read_9/read_2".toList ∧
    (remove_read_number "/read_1/read_2".toList).1 ≠
      (remove_read_number "/read_9/read_2".toList).1 := by
  constructor
  · refine ⟨[], "1".toList, "9".toList, "/read_2".toList, by decide, by decide,
      Or.inl ⟨by decide, by decide⟩, Or.inl ⟨by decide, by decide⟩,
      Or.inr ⟨"read_2".toList, by decide⟩, by decide⟩
  · decide

theorem strStarts_append_left (p r : Str) : strStarts (p ++ r) p = true := by
  induction p with
  | nil => cases r <;> rfl
  | cons c t ih => simp [strStarts, ih]

theorem findSubFrom_isSome_of_drop (pat : Str) :
    ∀ (s : Str) (j i : Nat), strStarts (s.drop j) pat = true →
    (findSubFrom pat s i).isSome = true := by
  intro s
  induction s with
  | nil =>
    intro j i h
    simp only [List.drop_nil] at h
    cases pat with
    | nil => rfl
    | cons c t => exact absurd h (by simp [strStarts])
  | cons c t ih =>
    intro j i h
    cases j with
    | zero =>
      simp only [List.drop_zero] at h
      simp [findSubFrom, h]
    | succ j2 =>
      simp only [List.drop_succ_cons] at h
      by_cases hs : strStarts (c :: t) pat = true
      · simp [findSubFrom, hs]
      · have hs2 : strStarts (c :: t) pat = false := by simpa using hs
        simp only [findSubFrom, hs2, Bool.false_eq_true, if_false]
        exact ih j2 (i + 1) h

theorem containsSub_of_drop (s pat : Str) (j : Nat)
    (h : strStarts (s.drop j) pat = true) : containsSub s pat = true := by
  unfold containsSub findSub
  exact findSubFrom_isSome_of_drop pat s j 0 h

theorem containsSub_mid (a pat b : Str) : containsSub (a ++ pat ++ b) pat = true := by
  apply containsSub_of_drop _ _ a.length
  rw [List.append_assoc, List.drop_left]
  exact strStarts_append_left pat b

theorem lowerStr_append (a b : Str) : lowerStr (a ++ b) = lowerStr a ++ lowerStr b :=
  List.map_append lowerChar a b

theorem lowerStr_marker : lowerStr readMarker = readMarker := by decide

theorem lowerStr_length (s : Str) : (lowerStr s).length = s.length :=
  List.length_map s lowerChar

theorem toNat_ofNat_small (n : Nat) (h : n < 55296) : (Char.ofNat n).toNat = n := by
  unfold Char.ofNat Char.toNat
  rw [dif_pos (Or.inl (by omega : n < 0xD800))]
  unfold Char.ofNatAux
  simp [UInt32.toNat, BitVec.toNat_ofNatLt]

theorem lowerChar_eq_slash (c : Char) : lowerChar c = '/' ↔ c = '/' := by
  constructor
  · intro h
    unfold lowerChar at h
    split_ifs at h with hc
    · exfalso
      have h1 : 65 ≤ c.toNat := hc.1
      have h2 : c.toNat ≤ 90 := hc.2
      have h3 := congrArg Char.toNat h
      rw [toNat_ofNat_small (c.toNat + 32) (by omega)] at h3
      have hs : ('/' : Char).toNat = 47 := by decide
      rw [hs] at h3
      omega
    · exact h
  · intro h
    subst h
    decide

theorem isDigit_bounds (c : Char) (h : c.isDigit = true) :
    48 ≤ c.toNat ∧ c.toNat ≤ 57 := by
  simp only [Char.isDigit, Bool.and_eq_true, decide_eq_true_eq] at h
  exact ⟨h.1, h.2⟩

theorem digit_isWord (c : Char) (h : c.isDigit = true) : isWordChar c = true := by
  simp [isWordChar, Char.isAlphanum, h]

theorem digit_ne_brace (c : Char) (h : c.isDigit = true) :
    c ≠ '{' ∧ c ≠ '-' ∧ c ≠ '}' := by
  obtain ⟨h1, h2⟩ := isDigit_bounds c h
  refine ⟨?_, ?_, ?_⟩ <;> intro he <;> subst he <;> revert h2 h1 <;> decide

theorem wordChar_ne_slash (c : Char) (h : isWordChar c = true) : c ≠ '/' := by
  intro he
  subst he
  exact absurd h (by decide)

theorem wordChar_lower_ne_slash (c : Char) (h : isWordChar c = true) :
    lowerChar c ≠ '/' :=
  fun he => wordChar_ne_slash c h ((lowerChar_eq_slash c).mp he)

theorem markerAt_true (s : Str) (p : Nat) (h : markerAt s p = true) :
    p + 6 ≤ s.length ∧ strStarts ((lowerStr s).drop p) readMarker = true := by
  unfold markerAt at h
  rw [decide_eq_true_eq] at h
  have hlen : ((s.drop p).take 6).length = 6 := by
    have h2 := congrArg List.length h
    unfold lowerStr at h2
    rw [List.length_map] at h2
    simpa using h2
  have hp6 : p + 6 ≤ s.length := by
    rw [List.length_take, List.length_drop] at hlen
    omega
  refine ⟨hp6, ?_⟩
  have hsplit : (lowerStr s).drop p =
      lowerStr ((s.drop p).take 6) ++ lowerStr ((s.drop p).drop 6) := by
    rw [← lowerStr_append, List.take_append_drop]
    unfold lowerStr
    rw [List.map_drop]
  rw [hsplit, h]
  exact strStarts_append_left _ _

theorem strStarts_head_ne (c p : Char) (cs ps : Str) (h : p ≠ c) :
    strStarts (c :: cs) (p :: ps) = false := by
  simp [strStarts, h]

theorem no_marker_mid (pre d suf : Str)
    (hd : ∀ c ∈ d, isWordChar c = true ∨ c = '-')
    (hsuf : containsSub (lowerStr suf) readMarker = false) :
    ∀ p, pre.length < p →
    markerAt (pre ++ readMarker ++ d ++ suf) p = false := by
  intro p hp
  by_contra hcontra
  have hM : markerAt (pre ++ readMarker ++ d ++ suf) p = true := by
    simpa using hcontra
  obtain ⟨hlen, hstart⟩ := markerAt_true _ p hM
  have hL : lowerStr (pre ++ readMarker ++ d ++ suf) =
      lowerStr pre ++ (readMarker ++ (lowerStr d ++ lowerStr suf)) := by
    rw [lowerStr_append, lowerStr_append, lowerStr_append, lowerStr_marker,
      List.append_assoc, List.append_assoc]
  rw [hL] at hstart
  have hplen : (lowerStr pre).length = pre.length := lowerStr_length pre
  have hpj : p = (lowerStr pre).length + (p - pre.length) := by omega
  rw [hpj, List.drop_append] at hstart
  set j := p - pre.length with hjdef
  have hj1 : 1 ≤ j := by omega
  by_cases hj5 : j ≤ 5
  · have hsplit : (readMarker ++ (lowerStr d ++ lowerStr suf)).drop j =
        readMarker.drop j ++ (lowerStr d ++ lowerStr suf) := by
      rw [List.drop_append_eq_append_drop]
      have hz : j - readMarker.length = 0 := by
        have hm6 : readMarker.length = 6 := by decide
        omega
      rw [hz, List.drop_zero]
    rw [hsplit] at hstart
    interval_cases j <;> exact absurd hstart (by simp [readMarker, strStarts])
  · have hj6 : 6 ≤ j := by omega
    have hsplit : (readMarker ++ (lowerStr d ++ lowerStr suf)).drop j =
        (lowerStr d ++ lowerStr suf).drop (j - 6) := by
      have hj2 : j = readMarker.length + (j - 6) := by
        have hm6 : readMarker.length = 6 := by decide
        omega
      nth_rewrite 1 [hj2]
      rw [List.drop_append]
    rw [hsplit] at hstart
    by_cases hjd : j - 6 < d.length
    · have hdl : j - 6 < (lowerStr d).length := by rw [lowerStr_length]; exact hjd
      have hsplit2 : (lowerStr d ++ lowerStr suf).drop (j - 6) =
          (lowerStr d)[j - 6] :: ((lowerStr d).drop (j - 6 + 1) ++ lowerStr suf) := by
        rw [List.drop_append_eq_append_drop]
        have : j - 6 - (lowerStr d).length = 0 := by omega
        rw [this, List.drop_zero, List.drop_eq_getElem_cons hdl, List.cons_append]
      rw [hsplit2] at hstart
      have hc : (lowerStr d)[j - 6] = lowerChar (d.get ⟨j - 6, hjd⟩) := by
        unfold lowerStr
        rw [List.getElem_map]
        rfl
      have hmem : d.get ⟨j - 6, hjd⟩ ∈ d := List.getElem_mem hjd
      have hne : lowerChar (d.get ⟨j - 6, hjd⟩) ≠ '/' := by
        rcases hd _ hmem with hw | hdash
        · exact wordChar_lower_ne_slash _ hw
        · rw [hdash]
          decide
      rw [hc] at hstart
      rw [show readMarker = '/' :: "read_".toList from rfl] at hstart
      rw [strStarts_head_ne _ _ _ _ (fun he => hne he.symm)] at hstart
      exact absurd hstart (by simp)
    · have hsplit2 : (lowerStr d ++ lowerStr suf).drop (j - 6) =
          (lowerStr suf).drop (j - 6 - d.length) := by
        have hsw : j - 6 = (lowerStr d).length + (j - 6 - d.length) := by
          rw [lowerStr_length]
          omega
        nth_rewrite 1 [hsw]
        rw [List.drop_append]
      rw [hsplit2] at hstart
      have := containsSub_of_drop (lowerStr suf) readMarker (j - 6 - d.length) hstart
      rw [hsuf] at this
      exact absurd this (by simp)

/-! ### The identifier alternation -/

/-- Lower bound on word characters a pattern list consumes. -/
def minWords : List RItem → Nat
  | [] => 0
  | RItem.optChar _ :: t => minWords t
  | RItem.wordN n :: t => n + minWords t

theorem matchAtoms_chars (k : Str → Bool) :
    ∀ (ps : List RItem) (s : Str) (n : Nat), matchAtoms k ps s = some n →
    n ≤ s.length ∧ ∀ c ∈ s.take n, isWordChar c = true ∨ RItem.optChar c ∈ ps := by
  intro ps
  induction ps with
  | nil =>
    intro s n h
    simp only [matchAtoms] at h
    split_ifs at h with hk
    injection h with h
    subst h
    exact ⟨Nat.zero_le _, by simp⟩
  | cons item rest ih =>
    intro s n h
    cases item with
    | optChar c =>
      cases s with
      | nil =>
        simp only [matchAtoms, Option.orElse] at h
        obtain ⟨hn, hc⟩ := ih [] n h
        exact ⟨hn, fun x hx => (hc x hx).imp id (List.mem_cons_of_mem _)⟩
      | cons r rs =>
        by_cases hr : r = c
        · subst hr
          simp only [matchAtoms, if_pos rfl] at h
          cases hm : matchAtoms k rest rs with
          | some n2 =>
            rw [hm] at h
            simp only [Option.map, Option.orElse] at h
            have hn1 : n = n2 + 1 := (Option.some.inj h).symm
            subst hn1
            obtain ⟨hn, hc⟩ := ih rs n2 hm
            constructor
            · simp only [List.length_cons]
              omega
            · intro x hx
              rw [List.take_succ_cons] at hx
              rcases List.mem_cons.mp hx with hx | hx
              · subst hx
                exact Or.inr (List.mem_cons_self _ _)
              · exact (hc x hx).imp id (List.mem_cons_of_mem _)
          | none =>
            rw [hm] at h
            simp only [Option.map_none, Option.orElse] at h
            obtain ⟨hn, hc⟩ := ih (r :: rs) n h
            exact ⟨hn, fun x hx => (hc x hx).imp id (List.mem_cons_of_mem _)⟩
        · simp only [matchAtoms, if_neg hr, Option.orElse] at h
          obtain ⟨hn, hc⟩ := ih (r :: rs) n h
          exact ⟨hn, fun x hx => (hc x hx).imp id (List.mem_cons_of_mem _)⟩
    | wordN m =>
      simp only [matchAtoms] at h
      split_ifs at h with hcond
      · obtain ⟨hlen, hall⟩ := hcond
        cases hm : matchAtoms k rest (s.drop m) with
        | some n2 =>
          rw [hm] at h
          simp only [Option.map] at h
          have hn1 : n = n2 + m := (Option.some.inj h).symm
          subst hn1
          obtain ⟨hn, hc⟩ := ih (s.drop m) n2 hm
          constructor
          · rw [List.length_drop] at hn
            rw [List.length_take] at hlen
            omega
          · intro x hx
            rw [Nat.add_comm n2 m, List.take_add] at hx
            rcases List.mem_append.mp hx with hx | hx
            · exact Or.inl (List.all_eq_true.mp hall x hx)
            · exact (hc x hx).imp id (List.mem_cons_of_mem _)
        | none =>
          rw [hm] at h
          exact absurd h (by simp)

theorem matchAtoms_countP (k : Str → Bool) :
    ∀ (ps : List RItem) (s : Str) (n : Nat), matchAtoms k ps s = some n →
    minWords ps ≤ (s.take n).countP isWordChar := by
  intro ps
  induction ps with
  | nil => intro s n h; exact Nat.zero_le _
  | cons item rest ih =>
    intro s n h
    cases item with
    | optChar c =>
      cases s with
      | nil =>
        simp only [matchAtoms, Option.orElse] at h
        exact ih [] n h
      | cons r rs =>
        by_cases hr : r = c
        · subst hr
          simp only [matchAtoms, if_pos rfl] at h
          cases hm : matchAtoms k rest rs with
          | some n2 =>
            rw [hm] at h
            simp only [Option.map, Option.orElse] at h
            have hn1 : n = n2 + 1 := (Option.some.inj h).symm
            subst hn1
            have := ih rs n2 hm
            rw [List.take_succ_cons, List.countP_cons]
            simp only [minWords]
            omega
          | none =>
            rw [hm] at h
            simp only [Option.map_none, Option.orElse] at h
            exact ih (r :: rs) n h
        · simp only [matchAtoms, if_neg hr, Option.orElse] at h
          exact ih (r :: rs) n h
    | wordN m =>
      simp only [matchAtoms] at h
      split_ifs at h with hcond
      · obtain ⟨hlen, hall⟩ := hcond
        cases hm : matchAtoms k rest (s.drop m) with
        | some n2 =>
          rw [hm] at h
          simp only [Option.map] at h
          have hn1 : n = n2 + m := (Option.some.inj h).symm
          subst hn1
          have hrec := ih (s.drop m) n2 hm
          rw [Nat.add_comm n2 m, List.take_add, List.countP_append]
          have hcnt : (s.take m).countP isWordChar = m := by
            rw [List.countP_eq_length.mpr (fun a ha => List.all_eq_true.mp hall a ha)]
            rw [List.length_take] at hlen ⊢
            omega
          simp only [minWords]
          omega
        | none =>
          rw [hm] at h
          exact absurd h (by simp)

theorem wordChar_ne (c x : Char) (h : isWordChar c = true)
    (hx : isWordChar x = false) : c ≠ x := by
  intro he
  subst he
  rw [h] at hx
  exact Bool.noConfusion hx

theorem tailOk_of_no_newline (s : Str) (h : s.count '\n' = 0) :
    tailOk s = true := by
  simp [tailOk, h]

theorem matchAtoms_nil_of (k : Str → Bool) (s : Str) (h : k s = true) :
    matchAtoms k [] s = some 0 := by
  show (if k s then some 0 else none) = some 0
  rw [if_pos h]

theorem matchAtoms_opt_skip (k : Str → Bool) (c : Char) (ps : List RItem)
    (s : Str) (h : ∀ r rs, s = r :: rs → r ≠ c) :
    matchAtoms k (RItem.optChar c :: ps) s = matchAtoms k ps s := by
  cases s with
  | nil => rfl
  | cons r rs =>
    show (if r = c then (matchAtoms k ps rs).map (· + 1) else none).orElse
        (fun _ => matchAtoms k ps (r :: rs)) = matchAtoms k ps (r :: rs)
    rw [if_neg (h r rs rfl)]
    rfl

theorem matchAtoms_opt_take (k : Str → Bool) (c : Char) (ps : List RItem)
    (rs : Str) (n : Nat) (h : matchAtoms k ps rs = some n) :
    matchAtoms k (RItem.optChar c :: ps) (c :: rs) = some (n + 1) := by
  show (if c = c then (matchAtoms k ps rs).map (· + 1) else none).orElse
      (fun _ => matchAtoms k ps (c :: rs)) = some (n + 1)
  rw [if_pos rfl, h]
  rfl

theorem matchAtoms_word_take (k : Str → Bool) (m : Nat) (ps : List RItem)
    (w rest2 : Str) (n : Nat) (hw : w.length = m)
    (hall : ∀ c ∈ w, isWordChar c = true)
    (h : matchAtoms k ps rest2 = some n) :
    matchAtoms k (RItem.wordN m :: ps) (w ++ rest2) = some (n + m) := by
  have ht : (w ++ rest2).take m = w := by rw [← hw, List.take_left]
  have hdr : (w ++ rest2).drop m = rest2 := by rw [← hw, List.drop_left]
  show (if ((w ++ rest2).take m).length = m ∧ ((w ++ rest2).take m).all isWordChar
      then (matchAtoms k ps ((w ++ rest2).drop m)).map (· + m) else none) =
      some (n + m)
  rw [ht, hdr, if_pos ⟨hw, List.all_eq_true.mpr hall⟩, h]
  rfl

theorem matchAtoms_skip_word_head (k : Str → Bool) (c : Char)
    (hc : isWordChar c = false) (ps : List RItem) (w rest2 : Str)
    (hwne : w ≠ []) (hwd : ∀ x ∈ w, isWordChar x = true) (n : Nat)
    (h : matchAtoms k ps (w ++ rest2) = some n) :
    matchAtoms k (RItem.optChar c :: ps) (w ++ rest2) = some n := by
  rw [matchAtoms_opt_skip]
  · exact h
  · intro r rs he
    cases w with
    | nil => exact absurd rfl hwne
    | cons w0 ws =>
      rw [List.cons_append] at he
      injection he with he1 _
      subst he1
      exact wordChar_ne w0 c (hwd w0 (List.mem_cons_self _ _)) hc

theorem matchAtoms_skip_boundary (k : Str → Bool) (c : Char)
    (hc : ('/' : Char) ≠ c) (ps : List RItem) (suf : Str)
    (hb : segBoundary suf) (n : Nat) (h : matchAtoms k ps suf = some n) :
    matchAtoms k (RItem.optChar c :: ps) suf = some n := by
  rw [matchAtoms_opt_skip]
  · exact h
  · intro r rs he
    rcases hb with hb | ⟨r2, hb⟩
    · subst hb
      exact List.noConfusion he
    · subst hb
      injection he with he1 _
      subst he1
      exact hc

theorem uuid_none_short (d suf : Str)
    (hlt : d.length < 32) (hb : segBoundary suf) :
    matchAtoms tailOk uuidPattern (d ++ suf) = none := by
  cases hm : matchAtoms tailOk uuidPattern (d ++ suf) with
  | none => rfl
  | some n =>
    exfalso
    have hcnt := matchAtoms_countP tailOk uuidPattern (d ++ suf) n hm
    obtain ⟨hnle, hmem⟩ := matchAtoms_chars tailOk uuidPattern (d ++ suf) n hm
    have hmw : minWords uuidPattern = 32 := by decide
    rw [hmw] at hcnt
    by_cases hn : n ≤ d.length
    · have hle : ((d ++ suf).take n).countP isWordChar ≤ n := by
        calc ((d ++ suf).take n).countP isWordChar
            ≤ ((d ++ suf).take n).length := List.countP_le_length _
          _ ≤ n := by rw [List.length_take]; omega
      omega
    · rcases hb with hb | ⟨r2, hb⟩
      · subst hb
        rw [List.append_nil] at hnle
        omega
      · subst hb
        have hsl : '/' ∈ (d ++ '/' :: r2).take n := by
          have hsp : (d ++ '/' :: r2).take n =
              d ++ ('/' :: r2).take (n - d.length) := by
            rw [List.take_append_eq_append_take,
              List.take_of_length_le (by omega)]
          rw [hsp]
          refine List.mem_append_right _ ?_
          rw [List.take_cons (by omega : 0 < n - d.length)]
          exact List.mem_cons_self _ _
        rcases hmem '/' hsl with h | h
        · exact absurd h (by decide)
        · exact absurd h (by decide)

theorem takeWhile_digits (d suf : Str) (hdig : ∀ c ∈ d, c.isDigit = true)
    (hb : segBoundary suf) :
    (d ++ suf).takeWhile Char.isDigit = d := by
  induction d with
  | nil =>
    rcases hb with hb | ⟨r2, hb⟩
    · subst hb
      rfl
    · subst hb
      show (('/' :: r2).takeWhile Char.isDigit : Str) = []
      rw [List.takeWhile_cons, if_neg (by decide : ¬(Char.isDigit '/' = true))]
  | cons c d2 ih =>
    rw [List.cons_append, List.takeWhile_cons]
    rw [hdig c (List.mem_cons_self _ _)]
    rw [ih (fun x hx => hdig x (List.mem_cons_of_mem _ hx))]
    rfl

theorem uuid_some_digits32 (d suf : Str) (hdig : ∀ c ∈ d, c.isDigit = true)
    (h32 : d.length = 32) (hb : segBoundary suf) (hnl : suf.count '\n' = 0) :
    matchAtoms tailOk uuidPattern (d ++ suf) = some 32 := by
  obtain ⟨a8, r1, hd1, hl8, hlr1⟩ :
      ∃ a b, d = a ++ b ∧ a.length = 8 ∧ b.length = 24 :=
    ⟨d.take 8, d.drop 8, (List.take_append_drop 8 d).symm,
      by simp [List.length_take, h32], by simp [List.length_drop, h32]⟩
  obtain ⟨a4a, r2, hd2, hl4a, hlr2⟩ :
      ∃ a b, r1 = a ++ b ∧ a.length = 4 ∧ b.length = 20 :=
    ⟨r1.take 4, r1.drop 4, (List.take_append_drop 4 r1).symm,
      by simp [List.length_take, hlr1], by simp [List.length_drop, hlr1]⟩
  obtain ⟨a4b, r3, hd3, hl4b, hlr3⟩ :
      ∃ a b, r2 = a ++ b ∧ a.length = 4 ∧ b.length = 16 :=
    ⟨r2.take 4, r2.drop 4, (List.take_append_drop 4 r2).symm,
      by simp [List.length_take, hlr2], by simp [List.length_drop, hlr2]⟩
  obtain ⟨a4c, a12, hd4, hl4c, hl12⟩ :
      ∃ a b, r3 = a ++ b ∧ a.length = 4 ∧ b.length = 12 :=
    ⟨r3.take 4, r3.drop 4, (List.take_append_drop 4 r3).symm,
      by simp [List.length_take, hlr3], by simp [List.length_drop, hlr3]⟩
  have hdd : ∀ c ∈ a8 ++ (a4a ++ (a4b ++ (a4c ++ a12))), c.isDigit = true := by
    intro c hc
    apply hdig
    rw [hd1, hd2, hd3, hd4]
    simpa [List.append_assoc] using hc
  have hd8 : ∀ c ∈ a8, c.isDigit = true :=
    fun c hc => hdd c (List.mem_append_left _ hc)
  have hd4a : ∀ c ∈ a4a, c.isDigit = true :=
    fun c hc => hdd c (List.mem_append_right _ (List.mem_append_left _ hc))
  have hd4b : ∀ c ∈ a4b, c.isDigit = true :=
    fun c hc => hdd c (List.mem_append_right _ (List.mem_append_right _
      (List.mem_append_left _ hc)))
  have hd4c : ∀ c ∈ a4c, c.isDigit = true :=
    fun c hc => hdd c (List.mem_append_right _ (List.mem_append_right _
      (List.mem_append_right _ (List.mem_append_left _ hc))))
  have hd12 : ∀ c ∈ a12, c.isDigit = true :=
    fun c hc => hdd c (List.mem_append_right _ (List.mem_append_right _
      (List.mem_append_right _ (List.mem_append_right _ hc))))
  have hw8 : ∀ c ∈ a8, isWordChar c = true := fun c hc => digit_isWord c (hd8 c hc)
  have hw4a : ∀ c ∈ a4a, isWordChar c = true := fun c hc => digit_isWord c (hd4a c hc)
  have hw4b : ∀ c ∈ a4b, isWordChar c = true := fun c hc => digit_isWord c (hd4b c hc)
  have hw4c : ∀ c ∈ a4c, isWordChar c = true := fun c hc => digit_isWord c (hd4c c hc)
  have hw12 : ∀ c ∈ a12, isWordChar c = true := fun c hc => digit_isWord c (hd12 c hc)
  have hne12 : a12 ≠ [] := by
    intro he
    rw [he] at hl12
    exact absurd hl12 (by decide)
  have hne4c : a4c ≠ [] := by
    intro he
    rw [he] at hl4c
    exact absurd hl4c (by decide)
  have hne4b : a4b ≠ [] := by
    intro he
    rw [he] at hl4b
    exact absurd hl4b (by decide)
  have hne4a : a4a ≠ [] := by
    intro he
    rw [he] at hl4a
    exact absurd hl4a (by decide)
  have hne8 : a8 ≠ [] := by
    intro he
    rw [he] at hl8
    exact absurd hl8 (by decide)
  have hshape : d ++ suf = a8 ++ (a4a ++ (a4b ++ (a4c ++ (a12 ++ suf)))) := by
    rw [hd1, hd2, hd3, hd4]
    simp [List.append_assoc]
  have h0 : matchAtoms tailOk [] suf = some 0 :=
    matchAtoms_nil_of tailOk suf (tailOk_of_no_newline suf hnl)
  have h1 : matchAtoms tailOk [RItem.optChar '\x7d'] suf = some 0 :=
    matchAtoms_skip_boundary tailOk _ (by decide) _ suf hb 0 h0
  have h2 := matchAtoms_word_take tailOk 12 _ a12 suf 0 hl12 hw12 h1
  have h3 := matchAtoms_skip_word_head tailOk '-' (by decide) _ a12 suf
    hne12 hw12 _ h2
  have h4 := matchAtoms_word_take tailOk 4 _ a4c (a12 ++ suf) _ hl4c hw4c h3
  have h5 := matchAtoms_skip_word_head tailOk '-' (by decide) _ a4c (a12 ++ suf)
    hne4c hw4c _ h4
  have h6 := matchAtoms_word_take tailOk 4 _ a4b (a4c ++ (a12 ++ suf)) _ hl4b hw4b h5
  have h7 := matchAtoms_skip_word_head tailOk '-' (by decide) _ a4b
    (a4c ++ (a12 ++ suf)) hne4b hw4b _ h6
  have h8 := matchAtoms_word_take tailOk 4 _ a4a (a4b ++ (a4c ++ (a12 ++ suf)))
    _ hl4a hw4a h7
  have h9 := matchAtoms_skip_word_head tailOk '-' (by decide) _ a4a
    (a4b ++ (a4c ++ (a12 ++ suf))) hne4a hw4a _ h8
  have h10 := matchAtoms_word_take tailOk 8 _ a8
    (a4a ++ (a4b ++ (a4c ++ (a12 ++ suf)))) _ hl8 hw8 h9
  have h11 := matchAtoms_skip_word_head tailOk '\x7b' (by decide) _ a8
    (a4a ++ (a4b ++ (a4c ++ (a12 ++ suf)))) hne8 hw8 _ h10
  rw [hshape]
  exact h11

theorem uuid_some_uuid (d suf : Str) (hd : isUUIDToken d)
    (hb : segBoundary suf) (hnl : suf.count '\n' = 0) :
    matchAtoms tailOk uuidPattern (d ++ suf) = some 36 ∧ d.length = 36 := by
  obtain ⟨w8, w4a, w4b, w4c, w12, hdec, hl8, hl4a, hl4b, hl4c, hl12,
    hw8, hw4a, hw4b, hw4c, hw12⟩ := hd
  have hne8 : w8 ≠ [] := by
    intro he
    rw [he] at hl8
    exact absurd hl8 (by decide)
  have hshape : d ++ suf =
      w8 ++ ('-' :: (w4a ++ ('-' :: (w4b ++ ('-' :: (w4c ++ ('-' :: (w12 ++ suf)))))))) := by
    rw [hdec]
    simp [List.append_assoc]
  have hlen : d.length = 36 := by
    rw [hdec]
    simp [hl8, hl4a, hl4b, hl4c, hl12]
  have h0 : matchAtoms tailOk [] suf = some 0 :=
    matchAtoms_nil_of tailOk suf (tailOk_of_no_newline suf hnl)
  have h1 : matchAtoms tailOk [RItem.optChar '\x7d'] suf = some 0 :=
    matchAtoms_skip_boundary tailOk _ (by decide) _ suf hb 0 h0
  have h2 := matchAtoms_word_take tailOk 12 _ w12 suf 0 hl12 hw12 h1
  have h3 := matchAtoms_opt_take tailOk '-' _ (w12 ++ suf) _ h2
  have h4 := matchAtoms_word_take tailOk 4 _ w4c ('-' :: (w12 ++ suf)) _ hl4c hw4c h3
  have h5 := matchAtoms_opt_take tailOk '-' _ (w4c ++ ('-' :: (w12 ++ suf))) _ h4
  have h6 := matchAtoms_word_take tailOk 4 _ w4b
    ('-' :: (w4c ++ ('-' :: (w12 ++ suf)))) _ hl4b hw4b h5
  have h7 := matchAtoms_opt_take tailOk '-' _
    (w4b ++ ('-' :: (w4c ++ ('-' :: (w12 ++ suf))))) _ h6
  have h8 := matchAtoms_word_take tailOk 4 _ w4a
    ('-' :: (w4b ++ ('-' :: (w4c ++ ('-' :: (w12 ++ suf)))))) _ hl4a hw4a h7
  have h9 := matchAtoms_opt_take tailOk '-' _
    (w4a ++ ('-' :: (w4b ++ ('-' :: (w4c ++ ('-' :: (w12 ++ suf))))))) _ h8
  have h10 := matchAtoms_word_take tailOk 8 _ w8
    ('-' :: (w4a ++ ('-' :: (w4b ++ ('-' :: (w4c ++ ('-' :: (w12 ++ suf)))))))) _ hl8 hw8 h9
  have h11 := matchAtoms_skip_word_head tailOk '\x7b' (by decide) _ w8
    ('-' :: (w4a ++ ('-' :: (w4b ++ ('-' :: (w4c ++ ('-' :: (w12 ++ suf)))))))) hne8 hw8 _ h10
  constructor
  · rw [hshape]
    exact h11
  · exact hlen

/-- Identifier tokens handled faithfully by the normalizer: decimal
integers of at most 32 digits, or canonical hyphenated UUIDs. -/
def goodId (d : Str) : Prop :=
  (isDecimalToken d ∧ d.length ≤ 32) ∨ isUUIDToken d

theorem altMatch_goodId (d suf : Str) (hd : goodId d) (hb : segBoundary suf)
    (hnl : suf.count '\n' = 0) : altMatch (d ++ suf) = some d := by
  rcases hd with ⟨⟨hne, hdig⟩, hle⟩ | huu
  · by_cases h32 : d.length = 32
    · have hm := uuid_some_digits32 d suf hdig h32 hb hnl
      unfold altMatch
      rw [hm]
      show some ((d ++ suf).take 32) = some d
      rw [← h32, List.take_left]
    · have hmn := uuid_none_short d suf (by omega) hb
      have htw := takeWhile_digits d suf hdig hb
      have htail : tailOk ((d ++ suf).drop d.length) = true := by
        rw [List.drop_left]
        exact tailOk_of_no_newline suf hnl
      unfold altMatch
      rw [hmn]
      show (if (d ++ suf).takeWhile Char.isDigit ≠ [] ∧
          tailOk ((d ++ suf).drop ((d ++ suf).takeWhile Char.isDigit).length)
          then some ((d ++ suf).takeWhile Char.isDigit) else none) = some d
      rw [htw, if_pos ⟨hne, htail⟩]
  · obtain ⟨hm, hlen⟩ := uuid_some_uuid d suf huu hb hnl
    unfold altMatch
    rw [hm]
    show some ((d ++ suf).take 36) = some d
    rw [← hlen, List.take_left]

theorem stepAt_at_pre (pre d suf : Str) (hd : goodId d) (hb : segBoundary suf)
    (hpre : pre.count '\n' = 0) (hnl : suf.count '\n' = 0) :
    stepAt (pre ++ readMarker ++ d ++ suf) pre.length =
      some (pre ++ readMarker, d, suf) := by
  have hassoc1 : pre ++ readMarker ++ d ++ suf =
      (pre ++ readMarker) ++ (d ++ suf) := by
    rw [List.append_assoc]
  have hassoc2 : pre ++ readMarker ++ d ++ suf =
      pre ++ (readMarker ++ (d ++ suf)) := by
    simp [List.append_assoc]
  have hdrop : (pre ++ readMarker ++ d ++ suf).drop pre.length =
      readMarker ++ (d ++ suf) := by
    rw [hassoc2]
    exact List.drop_left _ _
  have htake : (pre ++ readMarker ++ d ++ suf).take pre.length = pre := by
    rw [hassoc2]
    exact List.take_left _ _
  have hlpm : (pre ++ readMarker).length = pre.length + 6 := by
    rw [List.length_append]
    rfl
  have hdrop6 : (pre ++ readMarker ++ d ++ suf).drop (pre.length + 6) =
      d ++ suf := by
    rw [hassoc1, ← hlpm]
    exact List.drop_left _ _
  have htake6 : (pre ++ readMarker ++ d ++ suf).take (pre.length + 6) =
      pre ++ readMarker := by
    rw [hassoc1, ← hlpm]
    exact List.take_left _ _
  have hmark : markerAt (pre ++ readMarker ++ d ++ suf) pre.length = true := by
    unfold markerAt
    rw [hdrop, decide_eq_true_eq]
    have h6 : (readMarker ++ (d ++ suf)).take 6 = readMarker := by
      rw [show (6 : Nat) = readMarker.length from rfl]
      exact List.take_left _ _
    rw [h6, lowerStr_marker]
    rfl
  have halt : altMatch ((pre ++ readMarker ++ d ++ suf).drop (pre.length + 6)) =
      some d := by
    rw [hdrop6]
    exact altMatch_goodId d suf hd hb hnl
  have hdropEnd : (pre ++ readMarker ++ d ++ suf).drop
      (pre.length + 6 + d.length) = suf := by
    have hL : pre.length + 6 + d.length = (pre ++ readMarker ++ d).length := by
      have hm6 : readMarker.length = 6 := by decide
      rw [List.length_append, List.length_append, hm6]
    rw [hL]
    exact List.drop_left _ _
  unfold stepAt
  rw [if_pos ⟨hmark, by rw [htake]; exact hpre⟩, halt]
  show some ((pre ++ readMarker ++ d ++ suf).take (pre.length + 6), d,
      (pre ++ readMarker ++ d ++ suf).drop (pre.length + 6 + d.length)) =
    some (pre ++ readMarker, d, suf)
  rw [htake6, hdropEnd]

theorem stepAt_none_above (pre d suf : Str)
    (hdw : ∀ c ∈ d, isWordChar c = true ∨ c = '-')
    (hsufm : containsSub (lowerStr suf) readMarker = false) :
    ∀ q, pre.length < q → stepAt (pre ++ readMarker ++ d ++ suf) q = none := by
  intro q hq
  have hM := no_marker_mid pre d suf hdw hsufm q hq
  have hncond : ¬(markerAt (pre ++ readMarker ++ d ++ suf) q = true ∧
      ((pre ++ readMarker ++ d ++ suf).take q).count '\n' = 0) := by
    intro hc
    rw [hM] at hc
    exact Bool.noConfusion hc.1
  unfold stepAt
  rw [if_neg hncond]

theorem findFrom_of_stepAt (s : Str) (p : Nat) (v : Str × Str × Str)
    (hp : stepAt s p = some v)
    (habove : ∀ q, p < q → stepAt s q = none) :
    ∀ t, p ≤ t → findFrom s t = some v := by
  intro t
  induction t with
  | zero =>
    intro h0
    have hp0 : p = 0 := Nat.le_zero.mp h0
    subst hp0
    show stepAt s 0 = some v
    exact hp
  | succ t ih =>
    intro hle
    by_cases he : p = t + 1
    · subst he
      show (stepAt s (t + 1)).orElse (fun _ => findFrom s t) = some v
      rw [hp]
      rfl
    · have hq := habove (t + 1) (by omega)
      show (stepAt s (t + 1)).orElse (fun _ => findFrom s t) = some v
      rw [hq]
      show findFrom s t = some v
      exact ih (by omega)

theorem remove_read_number_single (pre d suf : Str) (hd : goodId d)
    (hb : segBoundary suf)
    (hsufm : containsSub (lowerStr suf) readMarker = false)
    (hpre : pre.count '\n' = 0) (hnl : suf.count '\n' = 0) :
    remove_read_number (pre ++ readMarker ++ d ++ suf) =
      (pre ++ readMarker ++ "XXX".toList ++ suf, some d) := by
  have hdw : ∀ c ∈ d, isWordChar c = true ∨ c = '-' := by
    rcases hd with ⟨⟨_, hdig⟩, _⟩ | huu
    · exact fun c hc => Or.inl (digit_isWord c (hdig c hc))
    · obtain ⟨w8, w4a, w4b, w4c, w12, hdec, _, _, _, _, _,
        hw8, hw4a, hw4b, hw4c, hw12⟩ := huu
      intro c hc
      rw [hdec] at hc
      simp only [List.append_assoc, List.mem_append, List.mem_singleton] at hc
      rcases hc with hc | hc | hc | hc | hc | hc | hc | hc | hc
      · exact Or.inl (hw8 c hc)
      · exact Or.inr hc
      · exact Or.inl (hw4a c hc)
      · exact Or.inr hc
      · exact Or.inl (hw4b c hc)
      · exact Or.inr hc
      · exact Or.inl (hw4c c hc)
      · exact Or.inr hc
      · exact Or.inl (hw12 c hc)
  have hstep := stepAt_at_pre pre d suf hd hb hpre hnl
  have habove := stepAt_none_above pre d suf hdw hsufm
  have hfind := findFrom_of_stepAt _ pre.length _ hstep habove
    (pre ++ readMarker ++ d ++ suf).length
    (by simp [List.length_append])
  have hcontains : containsSub (lowerStr (pre ++ readMarker ++ d ++ suf))
      ("/read_".toList) = true := by
    have hL : lowerStr (pre ++ readMarker ++ d ++ suf) =
        lowerStr pre ++ readMarker ++ (lowerStr d ++ lowerStr suf) := by
      rw [lowerStr_append, lowerStr_append, lowerStr_append, lowerStr_marker]
      simp [List.append_assoc]
    rw [show ("/read_".toList : Str) = readMarker from rfl, hL]
    exact containsSub_mid _ _ _
  unfold remove_read_number
  rw [if_pos hcontains, hfind]

theorem remove_read_number_no_marker (q : Str)
    (h : containsSub (lowerStr q) readMarker = false) :
    remove_read_number q = (q, none) := by
  have hncond : ¬(containsSub (lowerStr q) ("/read_".toList) = true) := by
    intro hc
    have hc2 : containsSub (lowerStr q) readMarker = true := hc
    rw [h] at hc2
    exact Bool.noConfusion hc2
  unfold remove_read_number
  rw [if_neg hncond]

/-- Claim C3 (amended): two raw paths that differ only in the per-read
identifier after a single marker occurrence normalize to the same
canonical key — provided the identifiers are decimal tokens of at most 32
digits or canonical hyphenated UUIDs, the marker token does not reoccur
in the (lowercased) suffix, and prefix and suffix are newline-free — and
each path's identifier is extracted; moreover every path whose lowercased
text does not contain the marker token at all is returned unchanged with
no extracted identifier.  (Unrestricted, the claim is false:
`claim_C3_counterexample` exhibits two paths differing only in the
identifier of their first marker segment that normalize differently,
because the greedy leading `.*` makes the rightmost marker win.) -/
theorem claim_C3_thm (p1 p2 pre d1 d2 suf : Str)
    (h1 : p1 = pre ++ readMarker ++ d1 ++ suf)
    (h2 : p2 = pre ++ readMarker ++ d2 ++ suf)
    (hd1 : goodId d1) (hd2 : goodId d2) (hb : segBoundary suf)
    (hsufm : containsSub (lowerStr suf) readMarker = false)
    (hpre : pre.count '\n' = 0) (hnl : suf.count '\n' = 0) :
    (remove_read_number p1).1 = (remove_read_number p2).1 ∧
    (remove_read_number p1).2 = some d1 ∧
    (remove_read_number p2).2 = some d2 ∧
    ∀ q : Str, containsSub (lowerStr q) readMarker = false →
      remove_read_number q = (q, none) := by
  subst h1
  subst h2
  rw [remove_read_number_single pre d1 suf hd1 hb hsufm hpre hnl,
    remove_read_number_single pre d2 suf hd2 hb hsufm hpre hnl]
  exact ⟨rfl, rfl, rfl, fun q hq => remove_read_number_no_marker q hq⟩

theorem claim_C3_witness :
    (remove_read_number "/a/read_7/x".toList).1 =
      (remove_read_number "/a/read_12/x".toList).1 ∧
    (remove_read_number "/a/read_7/x".toList).2 = some "7".toList ∧
    (remove_read_number "/a/read_12/x".toList).2 = some "12".toList ∧
    ∀ q : Str, containsSub (lowerStr q) readMarker = false →
      remove_read_number q = (q, none) :=
  claim_C3_thm "/a/read_7/x".toList "/a/read_12/x".toList "/a".toList
    "7".toList "12".toList "/x".toList (by decide) (by decide)
    (Or.inl ⟨⟨by decide, by decide⟩, by decide⟩)
    (Or.inl ⟨⟨by decide, by decide⟩, by decide⟩)
    (Or.inr ⟨"x".toList, by decide⟩) (by decide) (by decide) (by decide)
